import Mathlib

/-!
Verification of the hansard-tidy pipeline (shallow embedding).

The repository harvests Hansard transcripts (download_hansard_transcripts.py,
download_hansard_html.py), and normalises them into a relational schema
(tidy_hansard.py, tidy_html_hansard.py).  This file embeds the data model and
the operations of those scripts as executable Lean definitions and proves the
spec claims about them.

Python exceptions (AttributeError on a missing element, NameError on an
unbound variable, assert failures, HTTP errors raised by raise_for_status)
are modelled with `Except Unit`: `.error ()` is an uncaught exception that
aborts the enclosing phase.
-/

set_option maxHeartbeats 1000000

namespace HansardTidy

/-- An lxml element tree: tag, text and children (attributes and tail text are
never consulted by the scripts, so they are not modelled). -/
inductive Xml where
  | mk (tag : String) (text : Option String) (children : List Xml)
deriving Repr

mutual
def Xml.decEq : (a b : Xml) → Decidable (a = b)
  | .mk t1 s1 cs1, .mk t2 s2 cs2 =>
    if h1 : t1 = t2 then
      if h2 : s1 = s2 then
        match Xml.decEqList cs1 cs2 with
        | isTrue h3 => isTrue (by rw [h1, h2, h3])
        | isFalse h3 => isFalse (fun h => h3 (by cases h; rfl))
      else isFalse (fun h => h2 (by cases h; rfl))
    else isFalse (fun h => h1 (by cases h; rfl))

def Xml.decEqList : (as bs : List Xml) → Decidable (as = bs)
  | [], [] => isTrue rfl
  | [], _ :: _ => isFalse (by simp)
  | _ :: _, [] => isFalse (by simp)
  | a :: as, b :: bs =>
    match Xml.decEq a b, Xml.decEqList as bs with
    | isTrue h1, isTrue h2 => isTrue (by rw [h1, h2])
    | isFalse h1, _ => isFalse (fun h => h1 (by cases h; rfl))
    | _, isFalse h2 => isFalse (fun h => h2 (by cases h; rfl))
end

instance : DecidableEq Xml := Xml.decEq

def Xml.tag : Xml → String
  | .mk t _ _ => t

def Xml.text : Xml → Option String
  | .mk _ s _ => s

def Xml.children : Xml → List Xml
  | .mk _ _ c => c

/-- `element.find(tag)`: the first direct child with the given tag, or None. -/
def Xml.find (x : Xml) (t : String) : Option Xml :=
  x.children.find? (fun c => c.tag = t)

mutual
/-- All nodes of the subtree rooted at `x` in document (pre-) order, each
paired with its chain of ancestors, nearest first, extending `anc`.
Models the node set traversed by `root.xpath("//...")` plus `getparent()`
chains. -/
def nodePre (anc : List Xml) : Xml → List (Xml × List Xml)
  | .mk t s cs => (Xml.mk t s cs, anc) :: listPre (Xml.mk t s cs :: anc) cs

def listPre (anc : List Xml) : List Xml → List (Xml × List Xml)
  | [] => []
  | c :: cs => nodePre anc c ++ listPre anc cs
end

mutual
/-- All strict descendants of a node, each paired with its parent, in
document order. -/
def childPairs : Xml → List (Xml × Xml)
  | .mk t s cs => pairsList (Xml.mk t s cs) cs

def pairsList : Xml → List Xml → List (Xml × Xml)
  | _, [] => []
  | p, c :: cs => (c, p) :: (childPairs c ++ pairsList p cs)
end

/-- All strict descendants of a node in document order (the `.//` axis). -/
def strictDesc (x : Xml) : List Xml :=
  (childPairs x).map Prod.fst

mutual
/-- `etree.tostring(node, with_tail=False)` on the modelled tree. -/
def serialize : Xml → String
  | .mk t s cs => "<" ++ t ++ ">" ++ s.getD "" ++ serializeList cs ++ "</" ++ t ++ ">"

def serializeList : List Xml → String
  | [] => ""
  | c :: cs => serialize c ++ serializeList cs
end

/-- ASCII model of Python `str.lower()`. -/
def pyLower (s : String) : String :=
  ⟨s.data.map Char.toLower⟩

def isPySpace (c : Char) : Bool :=
  c = ' ' || c = '\t' || c = '\n' || c = '\r'

/-- ASCII model of Python `str.strip()`. -/
def pyStrip (s : String) : String :=
  ⟨((s.data.dropWhile isPySpace).reverse.dropWhile isPySpace).reverse⟩

/-- The speech-like tag set of `root.xpath("//speech|//question|//quest|//quesion|//answer")`,
including the attested tagging typos. -/
def speechTags : List String :=
  ["speech", "question", "quest", "quesion", "answer"]

/-- The speech-like nodes of a document in document order, each with its
ancestor chain (the `speech_nodes` xpath result of `extract_speeches`). -/
def matchedNodes (root : Xml) : List (Xml × List Xml) :=
  (nodePre [] root).filter (fun q => q.1.tag ∈ speechTags)

/-- Direct-speech speakers of one speech-like unit:
`speech.xpath(".//talk.start[not(parent::interjection)]//name.id")`, texts
lowercased, falsy (absent or empty) texts dropped, set-deduplicated. -/
def speakersOf (x : Xml) : List String :=
  (((childPairs x).filter
      (fun np => np.1.tag = "talk.start" && np.2.tag ≠ "interjection")).flatMap
    (fun np => (strictDesc np.1).filterMap
      (fun d => if d.tag = "name.id" then
          match d.text with
          | some t => if t ≠ "" then some (pyLower t) else none
          | none => none
        else none))).dedup

/-- Interjecting speakers of one speech-like unit:
`speech.xpath(".//interjection//talk.start//name.id")`, texts lowercased and
stripped, falsy texts dropped, set-deduplicated. -/
def interjectorsOf (x : Xml) : List String :=
  ((((strictDesc x).filter (fun n => n.tag = "interjection")).flatMap
    (fun ij => ((strictDesc ij).filter (fun n => n.tag = "talk.start")).flatMap
      (fun ts => (strictDesc ts).filterMap
        (fun d => if d.tag = "name.id" then
            match d.text with
            | some t => if t ≠ "" then some (pyStrip (pyLower t)) else none
            | none => none
          else none)))).dedup)

/-- A debate row as accumulated into the `debates` set of `extract_speeches`
(the leading `None` surrogate id of the Python tuple is omitted). -/
structure DRow where
  transcript_id : String
  date : Option String
  house : Option String
  debate : String
  subdebate_1 : String
  subdebate_2 : String
deriving Repr, DecidableEq

/-- One element of the `speeches` list returned by `extract_speeches`:
the debate tuple, the ordinal, the speech type, the serialized node and the
two speaker sets. -/
structure Entry where
  row : DRow
  num : Nat
  speech_type : String
  speech_xml : String
  speakers : List String
  interjectors : List String
deriving Repr, DecidableEq

/-- The `debate_info` accumulator (entries may become None via unguarded
`.text` accesses, which the code later detects with `if None in debate_info`). -/
structure DebateInfo where
  d0 : Option String
  d1 : Option String
  d2 : Option String
deriving Repr, DecidableEq

/-- Outcome of the ancestor walk: either the match was recognised as a
nested duplicate (`skip = True; break`), or the walk stopped at a
`debate`/`petition.group` container (or ran past the root). -/
inductive WalkStop where
  | skip
  | stopped (p : Option Xml)
deriving Repr, DecidableEq

/-- `debate_info[debate_info_level] = v` for level 1 or 2. -/
def setLvl (di : DebateInfo) (lvl1 : Bool) (v : Option String) : DebateInfo :=
  if lvl1 then { di with d1 := v } else { di with d2 := v }

/-- One non-container, non-speech-like ancestor step of the walk: the
`petition` and `subdebate.1`/`subdebate.2` handling.  `li` models the Python
local `subdebateinfo`, whose value leaks across iterations: when a subdebate
element has neither a `subdebateinfo` nor a `debateinfo` child the stale value
is reused, and if there is no stale value the NameError aborts extraction. -/
def stepTag (li : Option Xml) (di : DebateInfo) (p : Xml) :
    Except Unit (DebateInfo × Option Xml) :=
  if p.tag = "petition" then
    match p.find "petitioninfo" with
    | none => .error ()
    | some pi =>
      match pi.find "title" with
      | none => .error ()
      | some t => .ok ({ di with d1 := t.text }, li)
  else if p.tag = "subdebate.1" ∨ p.tag = "subdebate.2" then
    match (match p.find "subdebateinfo" with
           | some i => some i
           | none => p.find "debateinfo") with
    | none =>
      match li with
      | none => .error ()
      | some info => stepInfo di (p.tag = "subdebate.1") info
    | some info => stepInfo di (p.tag = "subdebate.1") info
  else
    .ok (di, li)
where
  /-- The title / para handling once `subdebateinfo` is bound. -/
  stepInfo (di : DebateInfo) (lvl1 : Bool) (info : Xml) :
      Except Unit (DebateInfo × Option Xml) :=
    match info.find "title" with
    | some t =>
      match t.text with
      | some s =>
        if s ≠ "" then .ok (setLvl di lvl1 (some s), some info)
        else .ok (setLvl di lvl1 (some "<untitled sub-debate>"), some info)
      | none => .ok (setLvl di lvl1 (some "<untitled sub-debate>"), some info)
    | none =>
      match info.find "para" with
      | some pa => .ok (setLvl di lvl1 pa.text, some info)
      | none => .ok (di, some info)

/-- The `while parent is not None and parent.tag not in ("debate", "petition.group")`
ancestor walk of `extract_speeches`. -/
def walkUp (li : Option Xml) (di : DebateInfo) :
    List Xml → Except Unit (WalkStop × DebateInfo × Option Xml)
  | [] => .ok (.stopped none, di, li)
  | p :: rest =>
    if p.tag = "debate" ∨ p.tag = "petition.group" then
      .ok (.stopped (some p), di, li)
    else if p.tag ∈ speechTags then
      .ok (.skip, di, li)
    else do
      let (di', li') ← stepTag li di p
      walkUp li' di' rest

/-- The post-walk handling of the stopping container: a titled `debate`
overrides the `<untitled debate>` placeholder; a `petition.group` supplies its
`petition.groupinfo` title (crashing if the structure is absent). -/
def finalizeTop (di : DebateInfo) : Option Xml → Except Unit DebateInfo
  | none => .ok di
  | some p =>
    if p.tag = "debate" then
      match p.find "debateinfo" with
      | none => .ok di
      | some dbi =>
        match dbi.find "title" with
        | none => .ok di
        | some t =>
          match t.text with
          | some s => if s ≠ "" then .ok { di with d0 := some s } else .ok di
          | none => .ok di
    else
      match p.find "petition.groupinfo" with
      | none => .error ()
      | some gi =>
        match gi.find "title" with
        | none => .error ()
        | some t => .ok { di with d0 := t.text }

/-- The speech type normalisation dict of `extract_speeches`. -/
def speechTypeOf (t : String) : String :=
  if t = "question" ∨ t = "quest" ∨ t = "quesion" then "question"
  else if t = "answer" then "answer"
  else "speech"

/-- Processing of one matched speech-like node: ancestor walk, container
finalisation, the `if None in debate_info` check (modelled as an abort, since
`breakpoint()` halts a non-interactive run) and record construction. -/
def processOne (tid : String) (date house : Option String) (li : Option Xml)
    (node : Xml) (anc : List Xml) (num : Nat) :
    Except Unit (Option (DRow × Entry) × Option Xml) :=
  match walkUp li ⟨some "<untitled debate>", some "", some ""⟩ anc with
  | .error () => .error ()
  | .ok (stop, di, li') =>
    match stop with
    | .skip => .ok (none, li')
    | .stopped p =>
      match finalizeTop di p with
      | .error () => .error ()
      | .ok di2 =>
        match di2.d0, di2.d1, di2.d2 with
        | some a, some b, some c =>
          let row : DRow := ⟨tid, date, house, a, b, c⟩
          .ok (some (row, ⟨row, num, speechTypeOf node.tag, serialize node,
            speakersOf node, interjectorsOf node⟩), li')
        | _, _, _ => .error ()

/-- `debates.add(debate_row)`: set insertion, first-occurrence order. -/
def addDeb (debs : List DRow) (r : DRow) : List DRow :=
  if r ∈ debs then debs else debs ++ [r]

/-- The `for speech_number, speech in enumerate(speech_nodes)` loop. -/
def extractLoop (tid : String) (date house : Option String) :
    List (Xml × List Xml) → Nat → Option Xml → List DRow → List Entry →
    Except Unit (List DRow × List Entry)
  | [], _, _, debs, sps => .ok (debs, sps)
  | q :: rest, i, li, debs, sps =>
    match processOne tid date house li q.1 q.2 i with
    | .error () => .error ()
    | .ok (none, li') => extractLoop tid date house rest (i + 1) li' debs sps
    | .ok (some (r, e), li') =>
      extractLoop tid date house rest (i + 1) li' (addDeb debs r) (sps ++ [e])

/-- `extract_speeches(transcript_id, transcript_xml)` of tidy_hansard.py.
Takes the parsed tree (parsing is the external lxml collaborator); returns
the debate set (in first-occurrence order) and the ordered speech list, or an
aborting exception. -/
def extract_speeches (tid : String) (root : Xml) :
    Except Unit (List DRow × List Entry) :=
  match root.find "session.header" with
  | none => .error ()
  | some session =>
    match session.find "chamber" with
    | none => .error ()
    | some chamber =>
      let house : Option String :=
        match chamber.text with
        | some "REPS" => some "House of Reps"
        | some "SENATE" => some "Senate"
        | some "SEN" => some "Senate"
        | h => h
      match session.find "date" with
      | none => .error ()
      | some dateEl =>
        let date : Option String :=
          if tid = "chamber/hansardr/2009-06-03" then some "2009-06-03"
          else dateEl.text
        extractLoop tid date house (matchedNodes root) 0 none [] []

/-- The pure discard criterion of the walk: ascending the ancestor chain, a
speech-like tag reached before any `debate`/`petition.group` container marks
the match as a duplicate nested unit. -/
def skipClass : List Xml → Bool
  | [] => false
  | p :: rest =>
    if p.tag = "debate" ∨ p.tag = "petition.group" then false
    else if p.tag ∈ speechTags then true
    else skipClass rest

/-- Structural conditions under which one node never makes the walk raise:
a `petition` has a `petitioninfo/title` with text, a subdebate level has a
`subdebateinfo` or `debateinfo` child whose title-less `para` (if used) has
text, and a `petition.group` has a `petition.groupinfo/title` with text.
Missing or empty titles of `debate`/`subdebateinfo` elements are allowed:
they produce placeholders, not failures. -/
def nodeOKb (n : Xml) : Bool :=
  if n.tag = "petition" then
    match n.find "petitioninfo" with
    | some pi =>
      match pi.find "title" with
      | some t => t.text.isSome
      | none => false
    | none => false
  else if n.tag = "subdebate.1" ∨ n.tag = "subdebate.2" then
    match (match n.find "subdebateinfo" with
           | some i => some i
           | none => n.find "debateinfo") with
    | none => false
    | some info =>
      match info.find "title" with
      | some _ => true
      | none =>
        match info.find "para" with
        | some pa => pa.text.isSome
        | none => true
  else if n.tag = "petition.group" then
    match n.find "petition.groupinfo" with
    | some gi =>
      match gi.find "title" with
      | some t => t.text.isSome
      | none => false
    | none => false
  else true

mutual
/-- `nodeOKb` holds everywhere in the subtree. -/
def allOK : Xml → Bool
  | .mk t s cs => nodeOKb (Xml.mk t s cs) && allOKList cs

def allOKList : List Xml → Bool
  | [] => true
  | c :: cs => allOK c && allOKList cs
end

/-- A document whose header parses (`session.header` with `chamber` and
`date` children) and all of whose nodes satisfy `nodeOKb`. -/
def docOK (root : Xml) : Bool :=
  (match root.find "session.header" with
   | some s => (s.find "chamber").isSome && (s.find "date").isSome
   | none => false) && allOK root

/-- A string free of ASCII uppercase letters, i.e. lowercase in the sense in
which `str.lower()` produces lowercase output. -/
def lowerFixed (s : String) : Prop :=
  ∀ c ∈ s.data, c.toLower = c

/-! ### The tidy schema of tidy_hansard.py (member / debate / speech tables) -/

/-- One record of the handbook roster feed (the JSON `value` items consumed by
`tidy_hansard`). -/
structure MemberRaw where
  PHID : String
  DisplayName : Option String
  Gender : Option String
  State : Option String
  Electorate : Option String
  Party : Option String
  DateOfBirth : Option String
deriving Repr, DecidableEq

/-- A row of the `member` table. -/
structure Member where
  phid : String
  name : Option String
  gender : Option String
  latest_state : Option String
  latest_electorate : Option String
  latest_party : Option String
  date_of_birth : Option String
deriving Repr, DecidableEq

/-- The member-table refresh of `tidy_hansard`: `values[0] = values[0].lower()`
before each insert. -/
def memberTable (raws : List MemberRaw) : List Member :=
  raws.map (fun r =>
    ⟨pyLower r.PHID, r.DisplayName, r.Gender, r.State, r.Electorate, r.Party,
      r.DateOfBirth⟩)

/-- A row of the `debate` table (integer surrogate key plus the natural
columns). -/
structure DbDebate where
  debate_id : Nat
  row : DRow
deriving Repr, DecidableEq

/-- A row of the `speech` table. -/
structure DbSpeech where
  speech_id : Nat
  transcript_id : String
  debate_id : Nat
  date : Option String
  house : Option String
  speech_number : Nat
  speech_type : String
  speech_xml : String
deriving Repr, DecidableEq

/-- The normalized target schema: debate / speech / speech_speaker /
speech_interjector tables plus the autoincrement counters for the two integer
primary keys. -/
structure TidyDB where
  debates : List DbDebate
  speeches : List DbSpeech
  speech_speaker : List (Nat × String)
  speech_interjector : List (Nat × String)
  nextDebateId : Nat
  nextSpeechId : Nat
deriving Repr, DecidableEq

/-- The natural key `(date, house, debate, subdebate_1, subdebate_2)` of the
`unique` constraint on the `debate` table. -/
def debKey (r : DRow) : Option String × Option String × String × String × String :=
  (r.date, r.house, r.debate, r.subdebate_1, r.subdebate_2)

/-- The foreign-key cascade triggered by `replace into transcript`: deleting a
transcript row deletes its debate and speech rows, and deleting a speech row
deletes its speech_speaker / speech_interjector rows. -/
def delTranscriptRows (db : TidyDB) (tid : String) : TidyDB :=
  let dead := (db.speeches.filter (fun s => s.transcript_id = tid)).map
    (fun s => s.speech_id)
  { db with
    debates := db.debates.filter (fun d => d.row.transcript_id ≠ tid),
    speeches := db.speeches.filter (fun s => s.transcript_id ≠ tid),
    speech_speaker := db.speech_speaker.filter (fun sp => sp.1 ∉ dead),
    speech_interjector := db.speech_interjector.filter (fun sp => sp.1 ∉ dead) }

/-- `insert into debate values(?, ...)`: the leading NULL takes the next
integer primary key; violating the natural-key unique constraint raises. -/
def insertDebates : TidyDB → List DRow → Except Unit TidyDB
  | db, [] => .ok db
  | db, r :: rs =>
    if db.debates.any (fun d => debKey d.row = debKey r) then .error ()
    else
      insertDebates
        { db with
          debates := db.debates ++ [⟨db.nextDebateId, r⟩],
          nextDebateId := db.nextDebateId + 1 }
        rs

/-- `insert into speech values(?1, ?2, (select debate_id from debate where
(date, house, debate, subdebate_1, subdebate_2) = (...)), ...)` followed by
the speech_speaker / speech_interjector inserts restricted to roster members.
An empty subquery (NULL debate_id) violates `debate_id not null`; a duplicate
`(date, house, speech_number)` violates the unique constraint: both raise. -/
def insertSpeeches (roster : List String) : TidyDB → List Entry → Except Unit TidyDB
  | db, [] => .ok db
  | db, e :: es =>
    match db.debates.find? (fun d => debKey d.row = debKey e.row) with
    | none => .error ()
    | some d =>
      if db.speeches.any (fun s =>
          s.date = e.row.date ∧ s.house = e.row.house ∧ s.speech_number = e.num) then
        .error ()
      else
        insertSpeeches roster
          { db with
            speeches := db.speeches ++
              [⟨db.nextSpeechId, e.row.transcript_id, d.debate_id, e.row.date,
                e.row.house, e.num, e.speech_type, e.speech_xml⟩],
            nextSpeechId := db.nextSpeechId + 1,
            speech_speaker := db.speech_speaker ++
              (e.speakers.filter (fun ph => ph ∈ roster)).map
                (fun ph => (db.nextSpeechId, ph)),
            speech_interjector := db.speech_interjector ++
              (e.interjectors.filter (fun ph => ph ∈ roster)).map
                (fun ph => (db.nextSpeechId, ph)) }
          es

/-- Reprocessing one transcript inside `tidy_hansard`: the cascade delete of
its outdated rows (the `replace into transcript` step) followed by extraction
and the debate / speech inserts. -/
def tidy_one_transcript (roster : List String) (db : TidyDB) (tid : String)
    (xml : Xml) : Except Unit TidyDB :=
  match extract_speeches tid xml with
  | .error () => .error ()
  | .ok (debs, sps) =>
    match insertDebates (delTranscriptRows db tid) debs with
    | .error () => .error ()
    | .ok db2 => insertSpeeches roster db2 sps

/-- The debate rows freshly inserted for one transcript, with ids allocated
from `n`. -/
def mkFresh : Nat → List DRow → List DbDebate
  | _, [] => []
  | n, r :: rs => ⟨n, r⟩ :: mkFresh (n + 1) rs

/-- The speech rows freshly inserted for one transcript, with ids allocated
from `n` and debate ids resolved by natural key against `table`. -/
def mkNewS (table : List DbDebate) : Nat → List Entry → List DbSpeech
  | _, [] => []
  | n, e :: es =>
    ⟨n, e.row.transcript_id,
      ((table.find? (fun d => debKey d.row = debKey e.row)).map
        (fun d => d.debate_id)).getD 0,
      e.row.date, e.row.house, e.num, e.speech_type, e.speech_xml⟩ ::
      mkNewS table (n + 1) es

/-- The speaker (or interjector) rows freshly inserted for one transcript. -/
def mkSpeakerRows (roster : List String) (f : Entry → List String) :
    Nat → List Entry → List (Nat × String)
  | _, [] => []
  | n, e :: es =>
    ((f e).filter (fun ph => ph ∈ roster)).map (fun ph => (n, ph)) ++
      mkSpeakerRows roster f (n + 1) es

/-- The debate table stripped of surrogate ids. -/
def stripDebates (db : TidyDB) : List DRow :=
  db.debates.map (fun d => d.row)

/-- The natural key of the debate row a surrogate id points at. -/
def resolveDebKey (db : TidyDB) (i : Nat) :
    Option (Option String × Option String × String × String × String) :=
  (db.debates.find? (fun d => d.debate_id = i)).map (fun d => debKey d.row)

/-- The speech table stripped of surrogate ids: each row keeps its natural
content and the natural key of the debate it references. -/
def stripSpeeches (db : TidyDB) :
    List (String × Option String × Option String × Nat × String × String ×
      Option (Option String × Option String × String × String × String)) :=
  db.speeches.map (fun s =>
    (s.transcript_id, s.date, s.house, s.speech_number, s.speech_type,
      s.speech_xml, resolveDebKey db s.debate_id))

/-! ### The freshness ledger of download_hansard_transcripts.py -/

/-- A row of the `transcript` table. -/
structure TRow where
  transcript_id : String
  html_url : Option String
  xml_url : Option String
  last_mod : Nat
  access_time : Option Nat
  process_time : Option Nat
deriving Repr, DecidableEq

/-- A row of the temporary `active_transcript` table. -/
structure ATRow where
  transcript_id : String
  last_mod : Nat
  html_url : Option String
deriving Repr, DecidableEq

/-- The reconciliation `replace into transcript(transcript_id, last_mod,
html_url) select ... from active_transcript at left outer join transcript t
using(transcript_id) where t.last_mod is null or at.last_mod > t.last_mod`.
A replaced row loses its xml_url / access_time / process_time (REPLACE is a
delete plus an insert of only the named columns). -/
def reconcileTranscripts (stored : String → Option TRow) (active : List ATRow) :
    String → Option TRow :=
  fun tid =>
    match active.find? (fun a => a.transcript_id = tid) with
    | none => stored tid
    | some a =>
      match stored tid with
      | none => some ⟨tid, a.html_url, none, a.last_mod, none, none⟩
      | some t =>
        if a.last_mod > t.last_mod then
          some ⟨tid, a.html_url, none, a.last_mod, none, none⟩
        else some t

/-- `"hansard" in url.loc` and the `/toc_unixml/` link filter: substring
containment. -/
def containsSub (s pat : String) : Bool :=
  decide (List.IsInfix pat.data s.data)

/-- `max(url.lastmod for url in subsite_urls)`; `max()` of an empty sequence
raises ValueError. -/
def maxLastmod : List Nat → Option Nat
  | [] => none
  | x :: xs => some (xs.foldl max x)

/-- The sitemap walk of `download_all_transcripts`: for each sub-index, the
maximum lastmod is asserted non-increasing (an AssertionError aborts the
phase), then the early-termination check `if lastmod < check_until: break`
runs.  Returns the list of visited sub-index maxima. -/
def walkMaps (check_until : Nat) (prev : Nat) : List (List Nat) → Except Unit (List Nat)
  | [] => .ok []
  | urls :: rest =>
    match maxLastmod urls with
    | none => .error ()
    | some lm =>
      if lm > prev then .error ()
      else if lm < check_until then .ok [lm]
      else
        match walkMaps check_until lm rest with
        | .error () => .error ()
        | .ok v => .ok (lm :: v)

/-! ### The proceedings_page ledger of download_hansard_html.py -/

/-- A row of the `proceedings_page` table (the integer `page_id` surrogate is
claim-irrelevant and omitted; rows are keyed by their unique `url`). -/
structure PRow where
  url : String
  last_mod : Nat
  access_time : Option Nat
  compressed_page : Option String
deriving Repr, DecidableEq

/-- An entry of the `active_proceedings` temporary table: one `(loc, lastmod)`
pair of a sub-sitemap. -/
structure APage where
  url : String
  last_mod : Nat
deriving Repr, DecidableEq

/-- The hansard URLs of every sub-sitemap: the loop over `all_sitemaps` has no
break, so the active set is always built from a complete pass. -/
def hansardUrlsOf (smaps : List (List APage)) : List APage :=
  smaps.flatMap (fun urls => urls.filter (fun u => containsSub u.url "hansard"))

/-- `delete from proceedings_page where url not in (select url from
active_proceedings)`. -/
def proceedingsDelete (stored : String → Option PRow) (active : List APage) :
    String → Option PRow :=
  fun u => if active.any (fun a => a.url = u) then stored u else none

/-- `replace into proceedings_page(...) select pp.page_id, ap.url,
ap.last_mod, pp.access_time, pp.compressed_page from active_proceedings ap
left outer join proceedings_page pp using(url) where pp.last_mod is null or
ap.last_mod > pp.last_mod`: marks updated pages stale while keeping the
previously downloaded payload. -/
def proceedingsReplace (stored : String → Option PRow) (active : List APage) :
    String → Option PRow :=
  fun u =>
    match active.find? (fun a => a.url = u) with
    | none => stored u
    | some a =>
      match stored u with
      | none => some ⟨u, a.last_mod, none, none⟩
      | some p =>
        if a.last_mod > p.last_mod then
          some ⟨u, a.last_mod, p.access_time, p.compressed_page⟩
        else some p

/-- The whole sitemap phase of `download_all_html`: the deletion step followed
by the replace step, both against the active set of a complete pass. -/
def htmlSitemapPhase (stored : String → Option PRow) (smaps : List (List APage)) :
    String → Option PRow :=
  proceedingsReplace (proceedingsDelete stored (hansardUrlsOf smaps))
    (hansardUrlsOf smaps)

/-! ### The fetch loop of download_hansard_html.py -/

/-- The staleness test of the `to_download` query:
`access_time is null or access_time < last_mod`. -/
def stale (p : PRow) : Bool :=
  match p.access_time with
  | none => true
  | some a => a < p.last_mod

/-- `coalesce(access_time, '1900-01-01')`. -/
def coalesceAccess (p : PRow) : Nat :=
  p.access_time.getD 0

/-- The `to_download` selection: the stale rows ordered with new pages first,
then least recently accessed. -/
def toDownload (pages : List PRow) : List PRow :=
  (pages.filter stale).insertionSort
    (fun p q => coalesceAccess p ≤ coalesceAccess q)

/-- `update proceedings_page set access_time = ?, compressed_page = ? where
url = ?`. -/
def updateByUrl (pages : List PRow) (u : String) (now : Nat) (content : String) :
    List PRow :=
  pages.map (fun q =>
    if q.url = u then
      { q with access_time := some now, compressed_page := some content }
    else q)

/-- The body of one pass of the fetch loop: each selected row is fetched; a
transport failure (`except Exception`) prints and moves on, a success commits
the payload and access time for that row. `fetch url = none` models
exhaustion of the transport-level retries. -/
def fetchPass (fetch : String → Option String) (now : Nat) (td : List PRow)
    (pages : List PRow) : List PRow :=
  td.foldl (fun pgs p =>
    match fetch p.url with
    | none => pgs
    | some content => updateByUrl pgs p.url now content) pages

/-- One full pass of the `while True` fetch loop of `download_all_html`. -/
def onePass (fetch : String → Option String) (now : Nat) (pages : List PRow) :
    List PRow :=
  fetchPass fetch now (toDownload pages) pages

/-- The effect of one pass on one row, given distinct URLs: rows selected for
download are updated exactly when their fetch succeeds. -/
def applyFetch (fetch : String → Option String) (now : Nat) (q : PRow) : PRow :=
  match fetch q.url with
  | none => q
  | some content => { q with access_time := some now, compressed_page := some content }

/-- The `while True` loop, fuel-indexed: the only exit is an empty
`to_download` set (`if not to_download: break`); `none` means the loop is
still running after `fuel` passes. -/
def downloadLoop (fetch : String → Option String) (now : Nat) :
    Nat → List PRow → Option (List PRow)
  | 0, pages => if (pages.filter stale).isEmpty then some pages else none
  | fuel + 1, pages =>
    if (pages.filter stale).isEmpty then some pages
    else downloadLoop fetch now fuel (onePass fetch now pages)

/-- The fetch loop terminates on the given table. -/
def loopTerminates (fetch : String → Option String) (now : Nat)
    (pages : List PRow) : Prop :=
  ∃ fuel, (downloadLoop fetch now fuel pages).isSome

/-- The number of successful fetches a pass over `pages` performs. -/
def passSuccesses (fetch : String → Option String) (pages : List PRow) : Nat :=
  ((toDownload pages).filter (fun p => (fetch p.url).isSome)).length

/-! ### The fetch loop of download_hansard_transcripts.py -/

/-- A `to_download` row of `download_all_transcripts`:
`transcript_id, last_mod, html_url` where `access_time is null`. -/
structure TFetchRow where
  transcript_id : String
  last_mod : Nat
  html_url : String
deriving Repr, DecidableEq

/-- The transcript download loop: `session.get` / `raise_for_status` with no
surrounding try/except, the `/toc_unixml/` link extraction with its
`assert len(...) <= 1`, the optional XML fetch, the zip write and the row
update.  `fetch url = none` models a transport error surviving the bounded
retries: the exception propagates and aborts the whole run.  Returns the zip
entries written and the row updates applied. -/
def transcriptFetchLoop (fetch : String → Option String)
    (links : String → List String) (now : Nat) :
    List TFetchRow →
    Except Unit (List (String × String) × List (String × Option String × Nat))
  | [] => .ok ([], [])
  | r :: rest =>
    match fetch r.html_url with
    | none => .error ()
    | some page =>
      match (links page).filter (fun u => containsSub u "/toc_unixml/") with
      | [] =>
        match transcriptFetchLoop fetch links now rest with
        | .error () => .error ()
        | .ok (z, ups) => .ok (z, (r.transcript_id, none, now) :: ups)
      | [xu] =>
        match fetch xu with
        | none => .error ()
        | some content =>
          match transcriptFetchLoop fetch links now rest with
          | .error () => .error ()
          | .ok (z, ups) =>
            .ok ((r.transcript_id ++ "/" ++ toString r.last_mod, content) :: z,
              (r.transcript_id, some xu, now) :: ups)
      | _ :: _ :: _ => .error ()

/-! ### tidy_html_hansard.py -/

/-- The header metadata `extract_page_data` pulls out of a page. -/
structure ExtractedMeta where
  date : Nat
  database : String
  parl_no : Nat
  title : String
  items : List (String × String)
deriving Repr, DecidableEq

/-- The tuple returned by `extract_page_data`: `content = none` models the
blanket `except Exception: return url, access_time, set(), None` branch taken
when decompression, markup parsing or header parsing fails. -/
structure PageResult where
  url : String
  access_time : Nat
  content : Option (ExtractedMeta × String)
deriving Repr, DecidableEq

/-- A row of the html `debate` table. -/
structure HDebate where
  debate_id : Nat
  date : Nat
  house : String
  parl_no : Nat
  title : String
deriving Repr, DecidableEq

/-- A row of the tidy html `proceedings_page` table. -/
structure HPage where
  page_id : Nat
  url : String
  access_time : Nat
  date : Nat
  house : String
  parl_no : Nat
  debate_id : Nat
  speech_html : String
deriving Repr, DecidableEq

/-- The target schema of tidy_html_hansard.py. -/
structure HDB where
  debates : List HDebate
  pages : List HPage
  metadata : List (Nat × String × String)
  failed : List (String × Nat)
  nextDebateId : Nat
  nextPageId : Nat
deriving Repr, DecidableEq

/-- `insert_data` of tidy_html_hansard.py.  On the failure branch the code
inserts into `failed_processing_page` and then executes `failures += 1`, but
`failures` is a local variable of `tidy_hansard`, not of `insert_data`: the
statement raises UnboundLocalError, which propagates and aborts the enclosing
(uncommitted) transaction — modelled as `.error ()`. -/
def insert_data (db : HDB) (r : PageResult) : Except Unit HDB :=
  match r.content with
  | none => .error ()
  | some (m, content) =>
    let db1 :=
      if db.debates.any (fun d =>
          d.date = m.date ∧ d.house = m.database ∧ d.title = m.title) then db
      else
        { db with
          debates := db.debates ++
            [⟨db.nextDebateId, m.date, m.database, m.parl_no, m.title⟩],
          nextDebateId := db.nextDebateId + 1 }
    match db1.debates.find? (fun d =>
        d.date = m.date ∧ d.house = m.database ∧ d.title = m.title) with
    | none => .error ()
    | some deb =>
      .ok { db1 with
        pages := db1.pages ++
          [⟨db1.nextPageId, r.url, r.access_time, m.date, m.database, m.parl_no,
            deb.debate_id, content⟩],
        metadata := db1.metadata ++ m.items.map (fun kv => (db1.nextPageId, kv.1, kv.2)),
        nextPageId := db1.nextPageId + 1 }

/-- The single-transaction processing run of tidy_html_hansard.py: results are
inserted one by one; an uncaught exception aborts the run and the transaction
never commits. -/
def insertRun (db : HDB) : List PageResult → Except Unit HDB
  | [] => .ok db
  | r :: rs =>
    match insert_data db r with
    | .error () => .error ()
    | .ok db' => insertRun db' rs

/-! ### Concrete fixtures for witnesses and counterexamples -/

/-- A witness document: a titled debate holding a speech (with a direct
speaker, an interjection and an illegally nested speech), a subdebate whose
title text is empty, and a second debate with no `debateinfo` at all. -/
def c1doc : Xml := .mk "hansard" none [
  .mk "session.header" none
    [.mk "chamber" (some "REPS") [], .mk "date" (some "1901-05-09") []],
  .mk "debate" none [
    .mk "debateinfo" none [.mk "title" (some "Governor-General") []],
    .mk "speech" none [
      .mk "talk.start" none [.mk "talker" none [.mk "name.id" (some "KXG") []]],
      .mk "interjection" none
        [.mk "talk.start" none [.mk "name.id" (some " JWF ") []]],
      .mk "speech" none []
    ],
    .mk "subdebate.1" none [
      .mk "subdebateinfo" none [.mk "title" (some "") []],
      .mk "question" none [],
      .mk "answer" none []
    ]
  ],
  .mk "debate" none [.mk "speech" none []]
]

/-- A minimal witness document: one titled debate with one speech. -/
def c3doc : Xml := .mk "hansard" none [
  .mk "session.header" none
    [.mk "chamber" (some "SENATE") [], .mk "date" (some "1950-03-08") []],
  .mk "debate" none [
    .mk "debateinfo" none [.mk "title" (some "Supply") []],
    .mk "speech" none []
  ]
]

/-- The empty tidy database. -/
def emptyTidyDB : TidyDB := ⟨[], [], [], [], 0, 0⟩

/-- A document where a speech-like node (the inner speech) has a speech-like
ancestor (the outer answer) above its nearest `debate` container. -/
def c9doc : Xml := .mk "hansard" none [
  .mk "session.header" none
    [.mk "chamber" (some "REPS") [], .mk "date" (some "2000-01-01") []],
  .mk "answer" none [
    .mk "debate" none [
      .mk "debateinfo" none [.mk "title" (some "D") []],
      .mk "speech" none []
    ]
  ]
]

/-- A witness document with mixed-case speaker ids. -/
def c10doc : Xml := .mk "hansard" none [
  .mk "session.header" none
    [.mk "chamber" (some "REPS") [], .mk "date" (some "1999-11-23") []],
  .mk "debate" none [
    .mk "debateinfo" none [.mk "title" (some "Bills") []],
    .mk "speech" none [
      .mk "talk.start" none [.mk "name.id" (some "ABC12") []],
      .mk "interjection" none [.mk "talk.start" none [.mk "name.id" (some "XyZ9") []]]
    ]
  ]
]

/-- A headerless raw document: `root.find("session.header")` is None and
`extract_speeches` dies on the attribute access. -/
def hdrlessDoc : Xml := .mk "hansard" none []

/-- A page result on the parse-failure branch. -/
def failR : PageResult := ⟨"u1", 5, none⟩

/-- A well-formed page result. -/
def okR : PageResult := ⟨"u2", 6, some (⟨1, "hansardr", 1, "T", [("Date", "01-01-1901")]⟩, "<div/>")⟩

/-- The empty html target database. -/
def emptyHDB : HDB := ⟨[], [], [], [], 0, 0⟩

/-- A proceedings_page table with a single never-fetched row. -/
def onePageTable : List PRow := [⟨"u", 5, none, none⟩]

/-- A fetch oracle for which every request fails even after the bounded
transport retries. -/
def failFetch : String → Option String := fun _ => none

/-- `select * from proceedings_page where url = ?`. -/
def getByUrl (pages : List PRow) (u : String) : Option PRow :=
  pages.find? (fun p => p.url = u)

/-- The walk hypothesis of the sitemap-ordering check: each sub-index is
nonempty and its maximum lastmod does not exceed its predecessor's. -/
def maximaChain (prev : Nat) : List (List Nat) → Bool
  | [] => true
  | l :: ls =>
    match maxLastmod l with
    | none => false
    | some lm => decide (lm ≤ prev) && maximaChain lm ls

/-- The walk traverses this prefix completely (ordered, and never below the
`check_until` early-termination bound), ending with maximum `e`. -/
def visitedTo (cu : Nat) : Nat → List (List Nat) → Nat → Bool
  | prev, [], e => decide (e = prev)
  | prev, l :: ls, e =>
    match maxLastmod l with
    | none => false
    | some lm => decide (lm ≤ prev) && decide (cu ≤ lm) && visitedTo cu lm ls e

/-! ## Lemmas about the extraction walk -/

theorem mem_addDeb_self (debs : List DRow) (r : DRow) : r ∈ addDeb debs r := by
  unfold addDeb
  split <;> simp_all

theorem subset_addDeb (debs : List DRow) (r : DRow) : debs ⊆ addDeb debs r := by
  unfold addDeb
  split
  · exact fun _ h => h
  · exact List.subset_append_left _ _

theorem mem_addDeb {x r : DRow} {debs : List DRow} (h : x ∈ addDeb debs r) :
    x ∈ debs ∨ x = r := by
  unfold addDeb at h
  split at h <;> simp_all

theorem addDeb_nodup {debs : List DRow} {r : DRow} (h : debs.Nodup) :
    (addDeb debs r).Nodup := by
  unfold addDeb
  split
  · exact h
  · rename_i hn
    simp [List.nodup_append, h, hn]

mutual
theorem nodePre_nodeOK (x : Xml) (anc : List Xml) (hx : allOK x = true)
    (hanc : ∀ p ∈ anc, nodeOKb p = true) :
    ∀ q ∈ nodePre anc x, nodeOKb q.1 = true ∧ ∀ p ∈ q.2, nodeOKb p = true := by
  match x with
  | .mk t s cs =>
    intro q hq
    rw [nodePre] at hq
    have hx' : nodeOKb (Xml.mk t s cs) = true ∧ allOKList cs = true := by
      simpa [allOK] using hx
    rcases List.mem_cons.mp hq with h | h
    · subst h
      exact ⟨hx'.1, hanc⟩
    · refine listPre_nodeOK cs (Xml.mk t s cs :: anc) hx'.2 ?_ q h
      intro p hp
      rcases List.mem_cons.mp hp with h' | h'
      · subst h'
        exact hx'.1
      · exact hanc p h'

theorem listPre_nodeOK (cs : List Xml) (anc : List Xml) (hx : allOKList cs = true)
    (hanc : ∀ p ∈ anc, nodeOKb p = true) :
    ∀ q ∈ listPre anc cs, nodeOKb q.1 = true ∧ ∀ p ∈ q.2, nodeOKb p = true := by
  match cs with
  | [] =>
    intro q hq
    rw [listPre] at hq
    simp at hq
  | c :: cs' =>
    intro q hq
    rw [listPre] at hq
    have hx' : allOK c = true ∧ allOKList cs' = true := by
      simpa [allOKList] using hx
    rcases List.mem_append.mp hq with h | h
    · exact nodePre_nodeOK c anc hx'.1 hanc q h
    · exact listPre_nodeOK cs' anc hx'.2 hanc q h
end

theorem matchedNodes_nodeOK (root : Xml) (h : allOK root = true) :
    ∀ q ∈ matchedNodes root, ∀ p ∈ q.2, nodeOKb p = true := by
  intro q hq
  have hq' : q ∈ nodePre [] root := List.mem_of_mem_filter hq
  exact (nodePre_nodeOK root [] h (by simp) q hq').2

theorem setLvl_isSome (di : DebateInfo) (b : Bool) (v : Option String)
    (h0 : di.d0.isSome) (h1 : di.d1.isSome) (h2 : di.d2.isSome) (hv : v.isSome) :
    (setLvl di b v).d0.isSome ∧ (setLvl di b v).d1.isSome ∧
      (setLvl di b v).d2.isSome := by
  cases b <;> simp [setLvl, *]

theorem stepInfo_ok (di : DebateInfo) (b : Bool) (info : Xml)
    (hinfo : (match info.find "title" with
              | some _ => true
              | none =>
                match info.find "para" with
                | some pa => pa.text.isSome
                | none => true) = true)
    (h0 : di.d0.isSome) (h1 : di.d1.isSome) (h2 : di.d2.isSome) :
    ∃ di', stepTag.stepInfo di b info = .ok (di', some info) ∧
      di'.d0.isSome ∧ di'.d1.isSome ∧ di'.d2.isSome := by
  unfold stepTag.stepInfo
  cases hti : info.find "title" with
  | some t =>
    cases ht : t.text with
    | some str =>
      by_cases hs : str = ""
      · refine ⟨setLvl di b (some "<untitled sub-debate>"), ?_,
          setLvl_isSome di b (some "<untitled sub-debate>") h0 h1 h2 rfl⟩
        simp [hti, ht, hs]
      · refine ⟨setLvl di b (some str), ?_,
          setLvl_isSome di b (some str) h0 h1 h2 rfl⟩
        simp [hti, ht, hs]
    | none =>
      refine ⟨setLvl di b (some "<untitled sub-debate>"), ?_,
        setLvl_isSome di b (some "<untitled sub-debate>") h0 h1 h2 rfl⟩
      simp [hti, ht]
  | none =>
    cases hpa : info.find "para" with
    | some pa =>
      have hpt : pa.text.isSome = true := by
        rw [hti, hpa] at hinfo
        exact hinfo
      refine ⟨setLvl di b pa.text, ?_, setLvl_isSome di b pa.text h0 h1 h2 hpt⟩
      simp [hti, hpa]
    | none =>
      refine ⟨di, ?_, h0, h1, h2⟩
      simp [hti, hpa]

theorem stepTag_ok (li : Option Xml) (di : DebateInfo) (p : Xml)
    (hp : nodeOKb p = true)
    (h0 : di.d0.isSome) (h1 : di.d1.isSome) (h2 : di.d2.isSome) :
    ∃ di' li', stepTag li di p = .ok (di', li') ∧
      di'.d0.isSome ∧ di'.d1.isSome ∧ di'.d2.isSome := by
  by_cases hpet : p.tag = "petition"
  · cases hfind : p.find "petitioninfo" with
    | none =>
      exfalso
      simp [nodeOKb, hpet, hfind] at hp
    | some pi =>
      cases hti : pi.find "title" with
      | none =>
        exfalso
        simp [nodeOKb, hpet, hfind, hti] at hp
      | some t =>
        have htt : t.text.isSome = true := by
          simpa [nodeOKb, hpet, hfind, hti] using hp
        refine ⟨{ di with d1 := t.text }, li, ?_, h0, htt, h2⟩
        simp [stepTag, hpet, hfind, hti]
  · by_cases hsub : p.tag = "subdebate.1" ∨ p.tag = "subdebate.2"
    · cases hsel : (match p.find "subdebateinfo" with
                    | some i => some i
                    | none => p.find "debateinfo") with
      | none =>
        exfalso
        simp only [nodeOKb, if_neg hpet, if_pos hsub, hsel] at hp
        exact Bool.false_ne_true hp
      | some info =>
        have hinfo : (match info.find "title" with
                      | some _ => true
                      | none =>
                        match info.find "para" with
                        | some pa => pa.text.isSome
                        | none => true) = true := by
          simpa only [nodeOKb, if_neg hpet, if_pos hsub, hsel] using hp
        obtain ⟨di', heq, k0, k1, k2⟩ := stepInfo_ok di _ info hinfo h0 h1 h2
        refine ⟨di', some info, ?_, k0, k1, k2⟩
        simp only [stepTag, if_neg hpet, if_pos hsub, hsel]
        exact heq
    · refine ⟨di, li, ?_, h0, h1, h2⟩
      simp [stepTag, hpet, hsub]

theorem walkUp_ok (anc : List Xml) :
    ∀ (li : Option Xml) (di : DebateInfo),
    (∀ p ∈ anc, nodeOKb p = true) →
    di.d0.isSome = true → di.d1.isSome = true → di.d2.isSome = true →
    ∃ stop di' li', walkUp li di anc = .ok (stop, di', li') ∧
      di'.d0.isSome = true ∧ di'.d1.isSome = true ∧ di'.d2.isSome = true ∧
      (stop = .skip ↔ skipClass anc = true) ∧
      (∀ p, stop = .stopped (some p) →
        p ∈ anc ∧ (p.tag = "debate" ∨ p.tag = "petition.group")) := by
  induction anc with
  | nil =>
    intro li di h h0 h1 h2
    exact ⟨.stopped none, di, li, rfl, h0, h1, h2, by simp [skipClass], by simp⟩
  | cons p rest ih =>
    intro li di h h0 h1 h2
    by_cases hc : p.tag = "debate" ∨ p.tag = "petition.group"
    · refine ⟨.stopped (some p), di, li, ?_, h0, h1, h2, ?_, ?_⟩
      · simp [walkUp, hc]
      · simp [skipClass, hc]
      · intro q hq
        obtain rfl : p = q := by simpa using hq
        exact ⟨List.mem_cons_self _ _, hc⟩
    · by_cases hs : p.tag ∈ speechTags
      · refine ⟨.skip, di, li, ?_, h0, h1, h2, ?_, ?_⟩
        · simp [walkUp, hc, hs]
        · simp [skipClass, hc, hs]
        · intro q hq
          simp at hq
      · obtain ⟨di', li', hstep, k0, k1, k2⟩ :=
          stepTag_ok li di p (h p (by simp)) h0 h1 h2
        obtain ⟨stop, di'', li'', hrec, m0, m1, m2, miff, mmem⟩ :=
          ih li' di' (fun q hq => h q (by simp [hq])) k0 k1 k2
        refine ⟨stop, di'', li'', ?_, m0, m1, m2, ?_, ?_⟩
        · simp only [walkUp, if_neg hc, if_neg hs, hstep]
          exact hrec
        · rw [show skipClass (p :: rest) = skipClass rest by simp [skipClass, hc, hs]]
          exact miff
        · intro q hq
          obtain ⟨hmem, htag⟩ := mmem q hq
          exact ⟨List.mem_cons_of_mem _ hmem, htag⟩

theorem finalizeTop_ok (di : DebateInfo) (po : Option Xml)
    (hpo : ∀ p, po = some p →
      nodeOKb p = true ∧ (p.tag = "debate" ∨ p.tag = "petition.group"))
    (h0 : di.d0.isSome = true) (h1 : di.d1.isSome = true)
    (h2 : di.d2.isSome = true) :
    ∃ di2, finalizeTop di po = .ok di2 ∧
      di2.d0.isSome = true ∧ di2.d1.isSome = true ∧ di2.d2.isSome = true := by
  cases po with
  | none => exact ⟨di, rfl, h0, h1, h2⟩
  | some p =>
    obtain ⟨hok, htag⟩ := hpo p rfl
    rcases htag with hd | hg
    · cases hdbi : p.find "debateinfo" with
      | none => exact ⟨di, by simp [finalizeTop, hd, hdbi], h0, h1, h2⟩
      | some dbi =>
        cases hti : dbi.find "title" with
        | none => exact ⟨di, by simp [finalizeTop, hd, hdbi, hti], h0, h1, h2⟩
        | some t =>
          cases ht : t.text with
          | none =>
            exact ⟨di, by simp [finalizeTop, hd, hdbi, hti, ht], h0, h1, h2⟩
          | some str =>
            by_cases hstr : str = ""
            · exact ⟨di, by simp [finalizeTop, hd, hdbi, hti, ht, hstr], h0, h1, h2⟩
            · exact ⟨{ di with d0 := some str },
                by simp [finalizeTop, hd, hdbi, hti, ht, hstr], rfl, h1, h2⟩
    · have hnd : ¬ p.tag = "debate" := by simp [hg]
      cases hgi : p.find "petition.groupinfo" with
      | none =>
        exfalso
        simp [nodeOKb, hg, hgi] at hok
      | some gi =>
        cases hti : gi.find "title" with
        | none =>
          exfalso
          simp [nodeOKb, hg, hgi, hti] at hok
        | some t =>
          have htt : t.text.isSome = true := by
            simpa [nodeOKb, hg, hgi, hti] using hok
          exact ⟨{ di with d0 := t.text },
            by simp [finalizeTop, hnd, hgi, hti], htt, h1, h2⟩

theorem processOne_ok (tid : String) (date house : Option String)
    (li : Option Xml) (node : Xml) (anc : List Xml) (num : Nat)
    (h : ∀ p ∈ anc, nodeOKb p = true) :
    ∃ res li', processOne tid date house li node anc num = .ok (res, li') ∧
      (skipClass anc = true → res = none) ∧
      (skipClass anc = false → ∃ row,
        res = some (row, ⟨row, num, speechTypeOf node.tag, serialize node,
          speakersOf node, interjectorsOf node⟩) ∧
        row.transcript_id = tid ∧ row.date = date ∧ row.house = house) := by
  obtain ⟨stop, di', li', hw, k0, k1, k2, kiff, kmem⟩ :=
    walkUp_ok anc li ⟨some "<untitled debate>", some "", some ""⟩ h rfl rfl rfl
  cases stop with
  | skip =>
    refine ⟨none, li', ?_, fun _ => rfl, ?_⟩
    · simp only [processOne, hw]
    · intro hsf
      rw [kiff.mp rfl] at hsf
      cases hsf
  | stopped po =>
    obtain ⟨di2, hf, m0, m1, m2⟩ := finalizeTop_ok di' po
      (fun p hp => ⟨h p (kmem p (by rw [hp])).1, (kmem p (by rw [hp])).2⟩)
      k0 k1 k2
    obtain ⟨a, ha⟩ := Option.isSome_iff_exists.mp m0
    obtain ⟨b, hb⟩ := Option.isSome_iff_exists.mp m1
    obtain ⟨c, hc⟩ := Option.isSome_iff_exists.mp m2
    refine ⟨some (⟨tid, date, house, a, b, c⟩,
      ⟨⟨tid, date, house, a, b, c⟩, num, speechTypeOf node.tag, serialize node,
        speakersOf node, interjectorsOf node⟩), li', ?_, ?_, ?_⟩
    · simp only [processOne, hw, hf, ha, hb, hc]
    · intro hst
      have := kiff.mpr hst
      simp at this
    · intro _
      exact ⟨⟨tid, date, house, a, b, c⟩, rfl, rfl, rfl, rfl⟩

/-! ## Lowercasing lemmas -/

theorem toLower_eq (c : Char) :
    c.toLower = if c.toNat ≥ 65 ∧ c.toNat ≤ 90 then Char.ofNat (c.toNat + 32) else c :=
  rfl

theorem ofNat_upper_toNat (n : Nat) (h1 : 65 ≤ n) (h2 : n ≤ 90) :
    (Char.ofNat (n + 32)).toNat = n + 32 := by
  interval_cases n <;> decide

theorem toLower_idem (c : Char) : c.toLower.toLower = c.toLower := by
  by_cases h : c.toNat ≥ 65 ∧ c.toNat ≤ 90
  · have h1 : c.toLower = Char.ofNat (c.toNat + 32) := by
      rw [toLower_eq, if_pos h]
    rw [h1, toLower_eq, ofNat_upper_toNat c.toNat h.1 h.2, if_neg (by omega)]
  · have h1 : c.toLower = c := by rw [toLower_eq, if_neg h]
    rw [h1, h1]

theorem pyLower_lowerFixed (s : String) : lowerFixed (pyLower s) := by
  intro c hc
  have hc' : c ∈ s.data.map Char.toLower := hc
  obtain ⟨d, _, rfl⟩ := List.mem_map.mp hc'
  exact toLower_idem d

theorem pyStrip_lowerFixed {s : String} (h : lowerFixed s) :
    lowerFixed (pyStrip s) := by
  intro c hc
  apply h
  have hc' : c ∈ ((s.data.dropWhile isPySpace).reverse.dropWhile isPySpace).reverse := hc
  have h2 := List.mem_reverse.mp hc'
  have h3 := (List.dropWhile_sublist _).subset h2
  have h4 := List.mem_reverse.mp h3
  exact (List.dropWhile_sublist _).subset h4

theorem speakersOf_lowerFixed (x : Xml) : ∀ s ∈ speakersOf x, lowerFixed s := by
  intro s hs
  unfold speakersOf at hs
  rw [List.mem_dedup] at hs
  obtain ⟨np, _, hs2⟩ := List.mem_flatMap.mp hs
  obtain ⟨d, _, hs3⟩ := List.mem_filterMap.mp hs2
  by_cases hd : d.tag = "name.id"
  · rw [if_pos hd] at hs3
    cases ht : d.text with
    | none => rw [ht] at hs3; cases hs3
    | some t =>
      rw [ht] at hs3
      by_cases hte : t = ""
      · simp [hte] at hs3
      · simp only [hte, ne_eq, not_false_eq_true, if_true, Option.some.injEq] at hs3
        exact hs3 ▸ pyLower_lowerFixed t
  · rw [if_neg hd] at hs3
    cases hs3

theorem interjectorsOf_lowerFixed (x : Xml) :
    ∀ s ∈ interjectorsOf x, lowerFixed s := by
  intro s hs
  unfold interjectorsOf at hs
  rw [List.mem_dedup] at hs
  obtain ⟨ij, _, hs1⟩ := List.mem_flatMap.mp hs
  obtain ⟨ts, _, hs2⟩ := List.mem_flatMap.mp hs1
  obtain ⟨d, _, hs3⟩ := List.mem_filterMap.mp hs2
  by_cases hd : d.tag = "name.id"
  · rw [if_pos hd] at hs3
    cases ht : d.text with
    | none => rw [ht] at hs3; cases hs3
    | some t =>
      rw [ht] at hs3
      by_cases hte : t = ""
      · simp [hte] at hs3
      · simp only [hte, ne_eq, not_false_eq_true, if_true, Option.some.injEq] at hs3
        exact hs3 ▸ pyStrip_lowerFixed (pyLower_lowerFixed t)
  · rw [if_neg hd] at hs3
    cases hs3

/-! ## The main extraction loop invariant -/

theorem extractLoop_spec (tid : String) (date house : Option String) :
    ∀ (ms : List (Xml × List Xml)) (i : Nat) (li : Option Xml)
      (debs : List DRow) (sps : List Entry),
    (∀ q ∈ ms, ∀ p ∈ q.2, nodeOKb p = true) →
    ∃ debs' tail,
      extractLoop tid date house ms i li debs sps = .ok (debs', sps ++ tail) ∧
      tail.map Entry.num =
        ((ms.enumFrom i).filter (fun q => skipClass q.2.2 = false)).map Prod.fst ∧
      tail.map (fun e => (e.num, e.speech_type, e.speech_xml, e.speakers,
        e.interjectors)) =
        ((ms.enumFrom i).filter (fun q => skipClass q.2.2 = false)).map
          (fun iq => (iq.1, speechTypeOf iq.2.1.tag, serialize iq.2.1,
            speakersOf iq.2.1, interjectorsOf iq.2.1)) ∧
      (∀ e ∈ tail, e.row ∈ debs' ∧ e.row.transcript_id = tid ∧
        e.row.date = date ∧ e.row.house = house ∧
        (∀ s ∈ e.speakers, lowerFixed s) ∧ (∀ s ∈ e.interjectors, lowerFixed s)) ∧
      (∀ r ∈ debs', r ∈ debs ∨
        (r.transcript_id = tid ∧ r.date = date ∧ r.house = house)) ∧
      debs ⊆ debs' ∧
      (debs.Nodup → debs'.Nodup) := by
  intro ms
  induction ms with
  | nil =>
    intro i li debs sps _
    exact ⟨debs, [], by simp [extractLoop], by simp, by simp, by simp,
      fun r hr => Or.inl hr, fun _ h => h, id⟩
  | cons q rest ih =>
    intro i li debs sps h
    obtain ⟨res, li', hp1, hskip, hkeep⟩ :=
      processOne_ok tid date house li q.1 q.2 i (h q (by simp))
    by_cases hsc : skipClass q.2 = true
    · obtain rfl : res = none := hskip hsc
      obtain ⟨debs', tail, ha, hb, hb2, hc, hd, he, hf⟩ :=
        ih (i + 1) li' debs sps (fun q' hq' => h q' (by simp [hq']))
      refine ⟨debs', tail, ?_, ?_, ?_, hc, hd, he, hf⟩
      · simp only [extractLoop, hp1]
        exact ha
      · rw [List.enumFrom_cons]
        simp only [List.filter_cons]
        rw [if_neg (by simp [hsc])]
        exact hb
      · rw [List.enumFrom_cons]
        simp only [List.filter_cons]
        rw [if_neg (by simp [hsc])]
        exact hb2
    · have hsf : skipClass q.2 = false := by
        revert hsc
        cases skipClass q.2 <;> simp
      obtain ⟨row, hres, hrtid, hrdate, hrhouse⟩ := hkeep hsf
      subst hres
      obtain ⟨debs', tail, ha, hb, hb2, hc, hd, he, hf⟩ :=
        ih (i + 1) li' (addDeb debs row)
          (sps ++ [⟨row, i, speechTypeOf q.1.tag, serialize q.1,
            speakersOf q.1, interjectorsOf q.1⟩])
          (fun q' hq' => h q' (by simp [hq']))
      refine ⟨debs',
        ⟨row, i, speechTypeOf q.1.tag, serialize q.1, speakersOf q.1,
          interjectorsOf q.1⟩ :: tail, ?_, ?_, ?_, ?_, ?_, ?_, ?_⟩
      · simp only [extractLoop, hp1]
        rw [show sps ++ ⟨row, i, speechTypeOf q.1.tag, serialize q.1,
            speakersOf q.1, interjectorsOf q.1⟩ :: tail =
          (sps ++ [⟨row, i, speechTypeOf q.1.tag, serialize q.1,
            speakersOf q.1, interjectorsOf q.1⟩]) ++ tail by simp]
        exact ha
      · rw [List.enumFrom_cons]
        simp only [List.filter_cons]
        rw [if_pos (by simp [hsf])]
        simp only [List.map_cons]
        rw [hb]
      · rw [List.enumFrom_cons]
        simp only [List.filter_cons]
        rw [if_pos (by simp [hsf])]
        simp only [List.map_cons]
        rw [hb2]
      · intro e he'
        rcases List.mem_cons.mp he' with h' | h'
        · subst h'
          exact ⟨he (mem_addDeb_self debs row), hrtid, hrdate, hrhouse,
            speakersOf_lowerFixed q.1, interjectorsOf_lowerFixed q.1⟩
        · exact hc e h'
      · intro r hr
        rcases hd r hr with h' | h'
        · rcases mem_addDeb h' with h'' | h''
          · exact Or.inl h''
          · subst h''
            exact Or.inr ⟨hrtid, hrdate, hrhouse⟩
        · exact Or.inr h'
      · exact fun a ha' => he (subset_addDeb debs row ha')
      · exact fun hn => hf (addDeb_nodup hn)

/-- What `extract_speeches` produces on a `docOK` document. -/
theorem extract_speeches_spec (tid : String) (root : Xml)
    (hdoc : docOK root = true) :
    ∃ date house debs sps,
      extract_speeches tid root = .ok (debs, sps) ∧
      sps.map Entry.num =
        (((matchedNodes root).enumFrom 0).filter
          (fun q => skipClass q.2.2 = false)).map Prod.fst ∧
      sps.map (fun e => (e.num, e.speech_type, e.speech_xml, e.speakers,
        e.interjectors)) =
        (((matchedNodes root).enumFrom 0).filter
          (fun q => skipClass q.2.2 = false)).map
          (fun iq => (iq.1, speechTypeOf iq.2.1.tag, serialize iq.2.1,
            speakersOf iq.2.1, interjectorsOf iq.2.1)) ∧
      (∀ e ∈ sps, e.row ∈ debs ∧ e.row.transcript_id = tid ∧
        e.row.date = date ∧ e.row.house = house ∧
        (∀ s ∈ e.speakers, lowerFixed s) ∧ (∀ s ∈ e.interjectors, lowerFixed s)) ∧
      (∀ r ∈ debs, r.transcript_id = tid ∧ r.date = date ∧ r.house = house) ∧
      debs.Nodup := by
  have hdoc' : (match root.find "session.header" with
      | some s => (s.find "chamber").isSome && (s.find "date").isSome
      | none => false) = true ∧ allOK root = true := by
    simpa [docOK] using hdoc
  cases hses : root.find "session.header" with
  | none =>
    exfalso
    rw [hses] at hdoc'
    exact Bool.false_ne_true hdoc'.1
  | some session =>
    have hcd : (session.find "chamber").isSome = true ∧
        (session.find "date").isSome = true := by
      have := hdoc'.1
      rw [hses] at this
      simpa using this
    obtain ⟨chamber, hch⟩ := Option.isSome_iff_exists.mp hcd.1
    obtain ⟨dateEl, hdt⟩ := Option.isSome_iff_exists.mp hcd.2
    obtain ⟨debs', tail, ha, hb, hb2, hc, hd, _, hf⟩ :=
      extractLoop_spec tid
        (if tid = "chamber/hansardr/2009-06-03" then some "2009-06-03"
         else dateEl.text)
        (match chamber.text with
         | some "REPS" => some "House of Reps"
         | some "SENATE" => some "Senate"
         | some "SEN" => some "Senate"
         | h => h)
        (matchedNodes root) 0 none [] []
        (matchedNodes_nodeOK root hdoc'.2)
    refine ⟨(if tid = "chamber/hansardr/2009-06-03" then some "2009-06-03"
        else dateEl.text),
      (match chamber.text with
       | some "REPS" => some "House of Reps"
       | some "SENATE" => some "Senate"
       | some "SEN" => some "Senate"
       | h => h),
      debs', tail, ?_, hb, hb2, ?_, ?_, hf List.nodup_nil⟩
    · simp only [extract_speeches, hses, hch, hdt]
      simpa using ha
    · intro e he'
      exact hc e he'
    · intro r hr
      rcases hd r hr with h' | h'
      · cases h'
      · exact h'

/-! ## Lemmas about the normalized store -/

theorem mkFresh_map_row (rs : List DRow) : ∀ n, (mkFresh n rs).map (fun d => d.row) = rs := by
  induction rs with
  | nil => intro n; rfl
  | cons r rs ih => intro n; simp [mkFresh, ih]

theorem mkFresh_map_id (rs : List DRow) :
    ∀ n, (mkFresh n rs).map (fun d => d.debate_id) = List.range' n rs.length := by
  induction rs with
  | nil => intro n; rfl
  | cons r rs ih => intro n; simp [mkFresh, ih, List.range'_succ]

theorem mkFresh_mem {rs : List DRow} {n : Nat} {d : DbDebate}
    (h : d ∈ mkFresh n rs) : d.row ∈ rs ∧ n ≤ d.debate_id := by
  induction rs generalizing n with
  | nil => cases h
  | cons r rs ih =>
    rw [mkFresh] at h
    rcases List.mem_cons.mp h with h' | h'
    · subst h'
      exact ⟨by simp, Nat.le_refl _⟩
    · obtain ⟨h1, h2⟩ := ih h'
      exact ⟨by simp [h1], by omega⟩

theorem insertDebates_ok : ∀ (rs : List DRow) (db : TidyDB),
    (∀ r ∈ rs, ∀ d ∈ db.debates, ¬ debKey d.row = debKey r) →
    (rs.map debKey).Nodup →
    insertDebates db rs = .ok
      ⟨db.debates ++ mkFresh db.nextDebateId rs, db.speeches, db.speech_speaker,
        db.speech_interjector, db.nextDebateId + rs.length, db.nextSpeechId⟩ := by
  intro rs
  induction rs with
  | nil =>
    intro db _ _
    cases db
    simp [insertDebates, mkFresh]
  | cons r rs ih =>
    intro db h hnd
    have hany : db.debates.any (fun d => debKey d.row = debKey r) = false := by
      rw [List.any_eq_false]
      intro d hd
      simpa using h r (by simp) d hd
    rw [insertDebates, hany]
    simp only [Bool.false_eq_true, if_false]
    rw [ih _ ?_ (by simpa using hnd.of_cons)]
    · cases db
      simp [mkFresh, Nat.add_assoc, Nat.add_comm 1 rs.length]
    · intro r' hr' d hd
      simp only [List.mem_append] at hd
      rcases hd with hd | hd
      · exact h r' (by simp [hr']) d hd
      · have : d = ⟨db.nextDebateId, r⟩ := by simpa using hd
        subst this
        have := (List.nodup_cons.mp hnd).1
        simp only []
        intro hk
        exact this (hk ▸ List.mem_map_of_mem debKey hr')

theorem insertSpeeches_ok (roster : List String) : ∀ (es : List Entry) (db : TidyDB),
    (∀ e ∈ es, (db.debates.find? (fun d => debKey d.row = debKey e.row)).isSome) →
    (∀ e ∈ es, ∀ s ∈ db.speeches,
      ¬(s.date = e.row.date ∧ s.house = e.row.house ∧ s.speech_number = e.num)) →
    (es.map Entry.num).Nodup →
    insertSpeeches roster db es = .ok
      ⟨db.debates, db.speeches ++ mkNewS db.debates db.nextSpeechId es,
        db.speech_speaker ++ mkSpeakerRows roster Entry.speakers db.nextSpeechId es,
        db.speech_interjector ++
          mkSpeakerRows roster Entry.interjectors db.nextSpeechId es,
        db.nextDebateId, db.nextSpeechId + es.length⟩ := by
  intro es
  induction es with
  | nil =>
    intro db _ _ _
    cases db
    simp [insertSpeeches, mkNewS, mkSpeakerRows]
  | cons e es ih =>
    intro db hfind huni hnd
    obtain ⟨d, hd⟩ := Option.isSome_iff_exists.mp (hfind e (by simp))
    have hany : db.speeches.any (fun s =>
        s.date = e.row.date ∧ s.house = e.row.house ∧ s.speech_number = e.num) = false := by
      rw [List.any_eq_false]
      intro s hs
      simpa using huni e (by simp) s hs
    rw [insertSpeeches, hd, hany]
    simp only [Bool.false_eq_true, if_false]
    rw [ih _ ?_ ?_ (by simpa using hnd.of_cons)]
    · cases db
      simp only at hd ⊢
      simp [mkNewS, mkSpeakerRows, hd, Nat.add_assoc, Nat.add_comm 1 es.length]
    · intro e' he'
      simpa using hfind e' (by simp [he'])
    · intro e' he' s hs
      simp only [List.mem_append] at hs
      rcases hs with hs | hs
      · exact huni e' (by simp [he']) s hs
      · have hse : s = ⟨db.nextSpeechId, e.row.transcript_id, d.debate_id,
            e.row.date, e.row.house, e.num, e.speech_type, e.speech_xml⟩ := by
          simpa using hs
        subst hse
        simp only []
        intro hk
        have := (List.nodup_cons.mp hnd).1
        exact this (hk.2.2 ▸ List.mem_map_of_mem Entry.num he')

theorem find?_id_eq (table : List DbDebate)
    (hnd : (table.map (fun d => d.debate_id)).Nodup)
    (d : DbDebate) (hd : d ∈ table) :
    table.find? (fun x => x.debate_id = d.debate_id) = some d := by
  induction table with
  | nil => cases hd
  | cons t ts ih =>
    have hnd' : (∀ x ∈ ts, ¬ x.debate_id = t.debate_id) ∧
        (ts.map (fun x => x.debate_id)).Nodup := by simpa using hnd
    by_cases ht : t.debate_id = d.debate_id
    · have htd : t = d := by
        rcases List.mem_cons.mp hd with h' | h'
        · exact h'.symm
        · exact absurd ht.symm (hnd'.1 d h')
      subst htd
      rw [List.find?_cons_of_pos]
      simp
    · rw [List.find?_cons_of_neg _ (by simpa using ht)]
      apply ih hnd'.2
      rcases List.mem_cons.mp hd with h' | h'
      · exact absurd (by rw [h'] : t.debate_id = d.debate_id) ht
      · exact h'

theorem mkNewS_strip (table : List DbDebate)
    (hnd : (table.map (fun d => d.debate_id)).Nodup) :
    ∀ (es : List Entry) (n : Nat),
    (∀ e ∈ es, (table.find? (fun d => debKey d.row = debKey e.row)).isSome) →
    (mkNewS table n es).map (fun s =>
      (s.transcript_id, s.date, s.house, s.speech_number, s.speech_type,
        s.speech_xml,
        (table.find? (fun x => x.debate_id = s.debate_id)).map
          (fun x => debKey x.row))) =
    es.map (fun e =>
      (e.row.transcript_id, e.row.date, e.row.house, e.num, e.speech_type,
        e.speech_xml, some (debKey e.row))) := by
  intro es
  induction es with
  | nil => intro n _; rfl
  | cons e es ih =>
    intro n hfind
    obtain ⟨d, hd⟩ := Option.isSome_iff_exists.mp (hfind e (by simp))
    have hmem := List.mem_of_find?_eq_some hd
    have hkey : debKey d.row = debKey e.row := by
      simpa using List.find?_some hd
    rw [mkNewS]
    simp only [List.map_cons, hd]
    rw [ih (n + 1) (fun e' he' => hfind e' (by simp [he']))]
    congr 1
    simp only [Option.map_some', Option.getD_some]
    rw [find?_id_eq table hnd d hmem, Option.map_some', hkey]

theorem mkNewS_mem {table : List DbDebate} {es : List Entry} {s : DbSpeech} :
    ∀ {n : Nat}, s ∈ mkNewS table n es →
      ∃ e ∈ es, s.transcript_id = e.row.transcript_id := by
  induction es with
  | nil => intro n h; cases h
  | cons e es ih =>
    intro n h
    rw [mkNewS] at h
    rcases List.mem_cons.mp h with h' | h'
    · subst h'
      exact ⟨e, by simp, rfl⟩
    · obtain ⟨e', he', hs⟩ := ih h'
      exact ⟨e', by simp [he'], hs⟩

theorem resolve_append_low (keepD freshD : List DbDebate) (i : Nat)
    (hfresh : ∀ d ∈ freshD, ¬ d.debate_id = i) :
    (keepD ++ freshD).find? (fun d => d.debate_id = i) =
      keepD.find? (fun d => d.debate_id = i) := by
  rw [List.find?_append]
  cases h : keepD.find? (fun d => d.debate_id = i) with
  | some d => rfl
  | none =>
    have : freshD.find? (fun d => d.debate_id = i) = none := by
      rw [List.find?_eq_none]
      intro d hd
      simpa using hfresh d hd
    simp [this]

/-- The explicit result of one `tidy_one_transcript` run: the cascade delete
keeps only foreign transcripts' rows, then fresh debate and speech rows are
appended with ids allocated from the current counters. -/
theorem tidy_once_shape (roster : List String) (db : TidyDB) (tid : String)
    (xml : Xml) (debs : List DRow) (sps : List Entry)
    (hex : extract_speeches tid xml = .ok (debs, sps))
    (hsp : ∀ e ∈ sps, e.row ∈ debs)
    (hkeysnd : (debs.map debKey).Nodup)
    (hnumsnd : (sps.map Entry.num).Nodup)
    (hkey : ∀ d ∈ db.debates, d.row.transcript_id ≠ tid →
      ∀ r ∈ debs, ¬ debKey d.row = debKey r)
    (hnum : ∀ s ∈ db.speeches, s.transcript_id ≠ tid → ∀ e ∈ sps,
      ¬(s.date = e.row.date ∧ s.house = e.row.house ∧ s.speech_number = e.num)) :
    tidy_one_transcript roster db tid xml = .ok
      { debates := db.debates.filter (fun d => d.row.transcript_id ≠ tid) ++
          mkFresh db.nextDebateId debs,
        speeches := db.speeches.filter (fun s => s.transcript_id ≠ tid) ++
          mkNewS (db.debates.filter (fun d => d.row.transcript_id ≠ tid) ++
            mkFresh db.nextDebateId debs) db.nextSpeechId sps,
        speech_speaker := db.speech_speaker.filter (fun sp =>
            sp.1 ∉ (db.speeches.filter
              (fun s => s.transcript_id = tid)).map (fun s => s.speech_id)) ++
          mkSpeakerRows roster Entry.speakers db.nextSpeechId sps,
        speech_interjector := db.speech_interjector.filter (fun sp =>
            sp.1 ∉ (db.speeches.filter
              (fun s => s.transcript_id = tid)).map (fun s => s.speech_id)) ++
          mkSpeakerRows roster Entry.interjectors db.nextSpeechId sps,
        nextDebateId := db.nextDebateId + debs.length,
        nextSpeechId := db.nextSpeechId + sps.length } := by
  have hobA : ∀ r ∈ debs, ∀ d ∈ (delTranscriptRows db tid).debates,
      ¬ debKey d.row = debKey r := by
    intro r hr d hd
    have hd' : d ∈ db.debates.filter (fun d => d.row.transcript_id ≠ tid) := hd
    have hd2 := List.mem_filter.mp hd'
    exact hkey d hd2.1 (by simpa using hd2.2) r hr
  have h1 := insertDebates_ok debs (delTranscriptRows db tid) hobA hkeysnd
  have hobF : ∀ e ∈ sps,
      (((delTranscriptRows db tid).debates ++
        mkFresh (delTranscriptRows db tid).nextDebateId debs).find?
          (fun d => debKey d.row = debKey e.row)).isSome = true := by
    intro e he
    rw [List.find?_isSome]
    have hrow := hsp e he
    have hrow' : e.row ∈
        (mkFresh (delTranscriptRows db tid).nextDebateId debs).map
          (fun d => d.row) := by
      rw [mkFresh_map_row]
      exact hrow
    obtain ⟨fd, hfd, hfr⟩ := List.mem_map.mp hrow'
    exact ⟨fd, List.mem_append_right _ hfd, by simp [hfr]⟩
  have hobU : ∀ e ∈ sps, ∀ s ∈ (delTranscriptRows db tid).speeches,
      ¬(s.date = e.row.date ∧ s.house = e.row.house ∧
        s.speech_number = e.num) := by
    intro e he s hs
    have hs' : s ∈ db.speeches.filter (fun s => s.transcript_id ≠ tid) := hs
    have hs2 := List.mem_filter.mp hs'
    exact hnum s hs2.1 (by simpa using hs2.2) e he
  have h2 := insertSpeeches_ok roster sps
    ⟨(delTranscriptRows db tid).debates ++
        mkFresh (delTranscriptRows db tid).nextDebateId debs,
      (delTranscriptRows db tid).speeches,
      (delTranscriptRows db tid).speech_speaker,
      (delTranscriptRows db tid).speech_interjector,
      (delTranscriptRows db tid).nextDebateId + debs.length,
      (delTranscriptRows db tid).nextSpeechId⟩
    hobF hobU hnumsnd
  simp only [tidy_one_transcript, hex, h1, h2]
  rfl

/-- The id-stripped content of a post-run state, computed from its shape. -/
theorem strip_shape (dbx : TidyDB) (keepD : List DbDebate) (keepS : List DbSpeech)
    (debs : List DRow) (sps : List Entry) (n m : Nat)
    (hdeb : dbx.debates = keepD ++ mkFresh n debs)
    (hspe : dbx.speeches = keepS ++ mkNewS (keepD ++ mkFresh n debs) m sps)
    (hkid : (keepD.map (fun d => d.debate_id)).Nodup)
    (hkidlt : ∀ d ∈ keepD, d.debate_id < n)
    (hslt : ∀ s ∈ keepS, s.debate_id < n)
    (hsp : ∀ e ∈ sps, e.row ∈ debs) :
    stripDebates dbx = keepD.map (fun d => d.row) ++ debs ∧
    stripSpeeches dbx =
      keepS.map (fun s => (s.transcript_id, s.date, s.house, s.speech_number,
        s.speech_type, s.speech_xml,
        (keepD.find? (fun d => d.debate_id = s.debate_id)).map
          (fun d => debKey d.row))) ++
      sps.map (fun e => (e.row.transcript_id, e.row.date, e.row.house, e.num,
        e.speech_type, e.speech_xml, some (debKey e.row))) := by
  have hfreshhigh : ∀ d ∈ mkFresh n debs, n ≤ d.debate_id :=
    fun d hd => (mkFresh_mem hd).2
  have hnd : ((keepD ++ mkFresh n debs).map (fun d => d.debate_id)).Nodup := by
    rw [List.map_append]
    refine List.Nodup.append hkid ?_ ?_
    · rw [mkFresh_map_id]
      simpa using List.nodup_range' n debs.length 1
    · intro i hi1 hi2
      obtain ⟨d1, hd1, rfl⟩ := List.mem_map.mp hi1
      rw [mkFresh_map_id] at hi2
      have h1 := (List.mem_range'_1.mp hi2).1
      have h2 := hkidlt d1 hd1
      omega
  have hfind : ∀ e ∈ sps,
      ((keepD ++ mkFresh n debs).find?
        (fun d => debKey d.row = debKey e.row)).isSome = true := by
    intro e he
    rw [List.find?_isSome]
    have hrow' : e.row ∈ (mkFresh n debs).map (fun d => d.row) := by
      rw [mkFresh_map_row]
      exact hsp e he
    obtain ⟨fd, hfd, hfr⟩ := List.mem_map.mp hrow'
    exact ⟨fd, List.mem_append_right _ hfd, by simp [hfr]⟩
  constructor
  · simp only [stripDebates, hdeb]
    rw [List.map_append, mkFresh_map_row]
  · simp only [stripSpeeches, resolveDebKey, hspe, hdeb]
    rw [List.map_append]
    congr 1
    · apply List.map_congr_left
      intro s hs
      have hlow : ∀ d ∈ mkFresh n debs, ¬ d.debate_id = s.debate_id := by
        intro d hd
        have h1 := hfreshhigh d hd
        have h2 := hslt s hs
        omega
      rw [resolve_append_low keepD (mkFresh n debs) s.debate_id hlow]
    · exact mkNewS_strip (keepD ++ mkFresh n debs) hnd sps m hfind

/-- The id-stripped content of a post-run state does not depend on the id
counters the fresh rows were allocated from. -/
theorem strip_indep (db1x db2x : TidyDB) (keepD : List DbDebate)
    (keepS : List DbSpeech) (debs : List DRow) (sps : List Entry)
    (n1 m1 n2 m2 : Nat)
    (h1d : db1x.debates = keepD ++ mkFresh n1 debs)
    (h1s : db1x.speeches = keepS ++ mkNewS (keepD ++ mkFresh n1 debs) m1 sps)
    (h2d : db2x.debates = keepD ++ mkFresh n2 debs)
    (h2s : db2x.speeches = keepS ++ mkNewS (keepD ++ mkFresh n2 debs) m2 sps)
    (hkid : (keepD.map (fun d => d.debate_id)).Nodup)
    (hlt1 : ∀ d ∈ keepD, d.debate_id < n1)
    (hlt2 : ∀ d ∈ keepD, d.debate_id < n2)
    (hsl1 : ∀ s ∈ keepS, s.debate_id < n1)
    (hsl2 : ∀ s ∈ keepS, s.debate_id < n2)
    (hsp : ∀ e ∈ sps, e.row ∈ debs) :
    stripDebates db2x = stripDebates db1x ∧
    stripSpeeches db2x = stripSpeeches db1x := by
  obtain ⟨e1d, e1s⟩ := strip_shape db1x keepD keepS debs sps n1 m1 h1d h1s
    hkid hlt1 hsl1 hsp
  obtain ⟨e2d, e2s⟩ := strip_shape db2x keepD keepS debs sps n2 m2 h2d h2s
    hkid hlt2 hsl2 hsp
  rw [e1d, e1s, e2d, e2s]
  exact ⟨rfl, rfl⟩

/-- C3: re-extracting identical payload bytes for the same document is
idempotent.  `extract_speeches` is a pure function of `(transcript_id, xml)`
(so two runs agree on the debate set and ordered speech list by
definitional determinism), speech rows locate their debate row through the
natural key `(date, house, debate, subdebate_1, subdebate_2)` rather than the
surrogate id, and `tidy_one_transcript` first cascade-deletes the
transcript's prior rows; hence running it twice on the same input yields
Debate/Speech tables identical up to the autoincrement surrogate ids
(`stripDebates` / `stripSpeeches` strip the ids and resolve each speech's
debate reference back to its natural key). -/
theorem c3_reextract_idempotent
    (roster : List String) (db : TidyDB) (tid : String) (xml : Xml)
    (debs : List DRow) (sps : List Entry)
    (hex : extract_speeches tid xml = .ok (debs, sps))
    (hdoc : docOK xml = true)
    (hwfid : (db.debates.map (fun d => d.debate_id)).Nodup)
    (hwfd : ∀ d ∈ db.debates, d.debate_id < db.nextDebateId)
    (hwfs : ∀ s ∈ db.speeches, s.debate_id < db.nextDebateId)
    (hkey : ∀ d ∈ db.debates, d.row.transcript_id ≠ tid →
      ∀ r ∈ debs, ¬ debKey d.row = debKey r)
    (hnum : ∀ s ∈ db.speeches, s.transcript_id ≠ tid → ∀ e ∈ sps,
      ¬(s.date = e.row.date ∧ s.house = e.row.house ∧ s.speech_number = e.num)) :
    ∃ db1 db2,
      tidy_one_transcript roster db tid xml = .ok db1 ∧
      tidy_one_transcript roster db1 tid xml = .ok db2 ∧
      stripDebates db2 = stripDebates db1 ∧
      stripSpeeches db2 = stripSpeeches db1 := by
  obtain ⟨dd, hh, debs₀, sps₀, hex₀, hb, hb2, hc, hdrows, hnodup⟩ :=
    extract_speeches_spec tid xml hdoc
  rw [hex] at hex₀
  obtain ⟨rfl, rfl⟩ : debs = debs₀ ∧ sps = sps₀ := by
    have h' := Except.ok.inj hex₀
    exact ⟨congrArg Prod.fst h', congrArg Prod.snd h'⟩
  have hsp : ∀ e ∈ sps, e.row ∈ debs := fun e he => (hc e he).1
  have hkeysnd : (debs.map debKey).Nodup := by
    refine List.Nodup.map_on ?_ hnodup
    intro x hx y hy hxy
    obtain ⟨hx1, hx2, hx3⟩ := hdrows x hx
    obtain ⟨hy1, hy2, hy3⟩ := hdrows y hy
    cases x
    cases y
    simp only [debKey, Prod.mk.injEq] at hxy
    simp_all
  have hnumsnd : (sps.map Entry.num).Nodup := by
    rw [hb]
    have hbig : (((matchedNodes xml).enumFrom 0).map Prod.fst).Nodup := by
      rw [List.enumFrom_map_fst]
      simpa using List.nodup_range' 0 (matchedNodes xml).length 1
    exact hbig.sublist ((List.filter_sublist _).map _)
  have hrun1 := tidy_once_shape roster db tid xml debs sps hex hsp hkeysnd
    hnumsnd hkey hnum
  -- hypotheses about the intermediate state
  have hkey1 : ∀ d ∈ (db.debates.filter (fun d => d.row.transcript_id ≠ tid) ++
      mkFresh db.nextDebateId debs), d.row.transcript_id ≠ tid →
      ∀ r ∈ debs, ¬ debKey d.row = debKey r := by
    intro d hd hdt r hr
    rcases List.mem_append.mp hd with h' | h'
    · exact hkey d (List.mem_filter.mp h').1 hdt r hr
    · exact absurd (hdrows d.row (mkFresh_mem h').1).1 hdt
  have hnum1 : ∀ s ∈ (db.speeches.filter (fun s => s.transcript_id ≠ tid) ++
      mkNewS (db.debates.filter (fun d => d.row.transcript_id ≠ tid) ++
        mkFresh db.nextDebateId debs) db.nextSpeechId sps),
      s.transcript_id ≠ tid → ∀ e ∈ sps,
      ¬(s.date = e.row.date ∧ s.house = e.row.house ∧
        s.speech_number = e.num) := by
    intro s hs hst e he
    rcases List.mem_append.mp hs with h' | h'
    · exact hnum s (List.mem_filter.mp h').1 hst e he
    · obtain ⟨e', he', hs'⟩ := mkNewS_mem h'
      exact absurd (hs' ▸ (hc e' he').2.1) hst
  have hrun2 := tidy_once_shape roster
    ⟨db.debates.filter (fun d => d.row.transcript_id ≠ tid) ++
        mkFresh db.nextDebateId debs,
      db.speeches.filter (fun s => s.transcript_id ≠ tid) ++
        mkNewS (db.debates.filter (fun d => d.row.transcript_id ≠ tid) ++
          mkFresh db.nextDebateId debs) db.nextSpeechId sps,
      db.speech_speaker.filter (fun sp =>
          sp.1 ∉ (db.speeches.filter
            (fun s => s.transcript_id = tid)).map (fun s => s.speech_id)) ++
        mkSpeakerRows roster Entry.speakers db.nextSpeechId sps,
      db.speech_interjector.filter (fun sp =>
          sp.1 ∉ (db.speeches.filter
            (fun s => s.transcript_id = tid)).map (fun s => s.speech_id)) ++
        mkSpeakerRows roster Entry.interjectors db.nextSpeechId sps,
      db.nextDebateId + debs.length, db.nextSpeechId + sps.length⟩
    tid xml debs sps hex hsp hkeysnd hnumsnd hkey1 hnum1
  -- the cascade of the second run deletes exactly the fresh rows of the first
  have hfilD : (db.debates.filter (fun d => d.row.transcript_id ≠ tid) ++
      mkFresh db.nextDebateId debs).filter
        (fun d => d.row.transcript_id ≠ tid) =
      db.debates.filter (fun d => d.row.transcript_id ≠ tid) := by
    rw [List.filter_append]
    have e1 : (db.debates.filter (fun d => d.row.transcript_id ≠ tid)).filter
        (fun d => d.row.transcript_id ≠ tid) =
        db.debates.filter (fun d => d.row.transcript_id ≠ tid) :=
      List.filter_eq_self.mpr (fun d hd => (List.mem_filter.mp hd).2)
    have e2 : (mkFresh db.nextDebateId debs).filter
        (fun d => d.row.transcript_id ≠ tid) = [] := by
      simp only [List.filter_eq_nil_iff]
      intro d hd
      simp [(hdrows d.row (mkFresh_mem hd).1).1]
    rw [e1, e2, List.append_nil]
  have hfilS : (db.speeches.filter (fun s => s.transcript_id ≠ tid) ++
      mkNewS (db.debates.filter (fun d => d.row.transcript_id ≠ tid) ++
        mkFresh db.nextDebateId debs) db.nextSpeechId sps).filter
        (fun s => s.transcript_id ≠ tid) =
      db.speeches.filter (fun s => s.transcript_id ≠ tid) := by
    rw [List.filter_append]
    have e1 : (db.speeches.filter (fun s => s.transcript_id ≠ tid)).filter
        (fun s => s.transcript_id ≠ tid) =
        db.speeches.filter (fun s => s.transcript_id ≠ tid) :=
      List.filter_eq_self.mpr (fun s hs => (List.mem_filter.mp hs).2)
    have e2 : (mkNewS (db.debates.filter (fun d => d.row.transcript_id ≠ tid) ++
        mkFresh db.nextDebateId debs) db.nextSpeechId sps).filter
        (fun s => s.transcript_id ≠ tid) = [] := by
      simp only [List.filter_eq_nil_iff]
      intro s hs
      obtain ⟨e', he', hs'⟩ := mkNewS_mem hs
      simp [hs' ▸ (hc e' he').2.1]
    rw [e1, e2, List.append_nil]
  rw [hfilD, hfilS] at hrun2
  have hkid : ((db.debates.filter
      (fun d => d.row.transcript_id ≠ tid)).map
        (fun d => d.debate_id)).Nodup :=
    hwfid.sublist ((List.filter_sublist _).map _)
  have hkidlt1 : ∀ d ∈ db.debates.filter (fun d => d.row.transcript_id ≠ tid),
      d.debate_id < db.nextDebateId :=
    fun d hd => hwfd d (List.mem_filter.mp hd).1
  have hslt1 : ∀ s ∈ db.speeches.filter (fun s => s.transcript_id ≠ tid),
      s.debate_id < db.nextDebateId :=
    fun s hs => hwfs s (List.mem_filter.mp hs).1
  refine ⟨_, _, hrun1, hrun2, ?_, ?_⟩
  · exact (strip_indep _ _ _ _ debs sps
      db.nextDebateId db.nextSpeechId
      (db.nextDebateId + debs.length) (db.nextSpeechId + sps.length)
      rfl rfl rfl rfl hkid hkidlt1
      (fun d hd => by have := hkidlt1 d hd; omega)
      hslt1 (fun s hs => by have := hslt1 s hs; omega) hsp).1
  · exact (strip_indep _ _ _ _ debs sps
      db.nextDebateId db.nextSpeechId
      (db.nextDebateId + debs.length) (db.nextSpeechId + sps.length)
      rfl rfl rfl rfl hkid hkidlt1
      (fun d hd => by have := hkidlt1 d hd; omega)
      hslt1 (fun s hs => by have := hslt1 s hs; omega) hsp).2

/-! ## C1 and C9: totality and nested-unit handling of the extraction -/

theorem filter_skip_split (l : List (Xml × List Xml)) :
    (l.filter (fun m => skipClass m.2 = false)).length +
      (l.filter (fun m => skipClass m.2)).length = l.length := by
  induction l with
  | nil => rfl
  | cons a l ih =>
    cases hp : skipClass a.2 <;>
      simp [List.filter_cons, hp] at ih ⊢ <;>
      omega

theorem enum_filter_skip_length :
    ∀ (l : List (Xml × List Xml)) (n : Nat),
    ((List.enumFrom n l).filter (fun q => skipClass q.2.2 = false)).length =
      (l.filter (fun m => skipClass m.2 = false)).length := by
  intro l
  induction l with
  | nil => intro n; rfl
  | cons a l ih =>
    intro n
    rw [List.enumFrom_cons]
    have ih' := ih (n + 1)
    cases hp : skipClass a.2 <;>
      simp [List.filter_cons, hp] at ih' ⊢ <;>
      omega

/-- C1: on a document whose header parses and whose `petition`, subdebate and
`petition.group` nodes carry the info containers the code dereferences
(`docOK` — note it places no requirement on `debate` or subdebate titles,
which may be absent or empty), `extract_speeches` succeeds, and its speeches
list carries exactly one record for each matched speech-like node that is not
an explicit nested-duplicate discard, numbered by the node's position among
all matched nodes; consequently |speeches| + |discards| = |matched|: no
matched node is silently dropped, and missing titles produce placeholder
rows rather than dropping the node or failing the document. -/
theorem c1_extraction_total (tid : String) (root : Xml)
    (hdoc : docOK root = true) :
    ∃ debs sps, extract_speeches tid root = .ok (debs, sps) ∧
      sps.map Entry.num =
        (((matchedNodes root).enumFrom 0).filter
          (fun q => skipClass q.2.2 = false)).map Prod.fst ∧
      sps.length +
        ((matchedNodes root).filter (fun q => skipClass q.2)).length =
        (matchedNodes root).length := by
  obtain ⟨dd, hh, debs, sps, hex, hb, _, hc, hd, hn⟩ :=
    extract_speeches_spec tid root hdoc
  refine ⟨debs, sps, hex, hb, ?_⟩
  have h1 : sps.length =
      ((matchedNodes root).filter (fun m => skipClass m.2 = false)).length := by
    have h' := congrArg List.length hb
    rw [List.length_map, List.length_map, enum_filter_skip_length] at h'
    exact h'
  rw [h1]
  exact filter_skip_split (matchedNodes root)

/-- C1 witness: the fixture document `c1doc` satisfies `docOK`, the theorem
applies, and concretely the five matched nodes yield records 0, 2, 3, 4 (node
1 is the nested duplicate), with the placeholder debate and sub-debate
titles substituted for the missing ones. -/
theorem c1_witness :
    docOK c1doc = true ∧
    (∃ debs sps, extract_speeches "w" c1doc = .ok (debs, sps) ∧
      sps.map Entry.num =
        (((matchedNodes c1doc).enumFrom 0).filter
          (fun q => skipClass q.2.2 = false)).map Prod.fst ∧
      sps.length +
        ((matchedNodes c1doc).filter (fun q => skipClass q.2)).length =
        (matchedNodes c1doc).length) ∧
    (extract_speeches "w" c1doc).map
        (fun r => r.2.map (fun e => (e.num, e.row.debate, e.row.subdebate_1))) =
      .ok [(0, "Governor-General", ""),
        (2, "Governor-General", "<untitled sub-debate>"),
        (3, "Governor-General", "<untitled sub-debate>"),
        (4, "<untitled debate>", "")] :=
  ⟨by decide, c1_extraction_total "w" c1doc (by decide), by rfl⟩

/-- C9 counterexample: in `c9doc` the inner speech (matched node 1) has a
speech-like ancestor — the `answer` element above its `debate` container —
yet extraction emits a record numbered 1 for it, because the walk stops at
the `debate` container before ever seeing the `answer`.  This refutes the
claim that every matched node with a speech-like ancestor is discarded. -/
theorem c9_counterexample :
    ¬ (∀ (i : Nat) (q : Nat × Xml × List Xml),
        ((matchedNodes c9doc).enumFrom 0)[i]? = some q →
        (∃ a ∈ q.2.2, a.tag ∈ speechTags) →
        ∀ nums, (extract_speeches "t" c9doc).map
            (fun r => r.2.map Entry.num) = .ok nums →
          q.1 ∉ nums) := by
  intro h
  exact h 1 _ rfl (by decide) [0, 1] (by rfl) (by decide)

/-- C9 amended: a matched speech-like node is discarded as a duplicate nested
unit iff, ascending its ancestor chain, a speech-like tag occurs before any
`debate`/`petition.group` container (`skipClass`); interjection elements are
never matched as speech-like units, and each emitted record's interjector set
is exactly the `interjection//talk.start//name.id` collection of its node,
kept separate from the direct-speaker set. -/
theorem c9_nested_units (tid : String) (root : Xml) (hdoc : docOK root = true) :
    ∃ debs sps, extract_speeches tid root = .ok (debs, sps) ∧
      (∀ q ∈ (matchedNodes root).enumFrom 0,
        (q.1 ∈ sps.map Entry.num ↔ skipClass q.2.2 = false)) ∧
      (∀ q ∈ matchedNodes root, q.1.tag ≠ "interjection") ∧
      sps.map (fun e => (e.num, e.speakers, e.interjectors)) =
        (((matchedNodes root).enumFrom 0).filter
          (fun q => skipClass q.2.2 = false)).map
          (fun iq => (iq.1, speakersOf iq.2.1, interjectorsOf iq.2.1)) := by
  obtain ⟨dd, hh, debs, sps, hex, hb, hb2, hc, hd, hn⟩ :=
    extract_speeches_spec tid root hdoc
  refine ⟨debs, sps, hex, ?_, ?_, ?_⟩
  · intro q hq
    rw [hb]
    constructor
    · intro hmem
      obtain ⟨q', hq', hfst⟩ := List.mem_map.mp hmem
      have hq'f := List.mem_filter.mp hq'
      have hnodup : (((matchedNodes root).enumFrom 0).map Prod.fst).Nodup := by
        rw [List.enumFrom_map_fst]
        simpa using List.nodup_range' 0 (matchedNodes root).length 1
      have hqq : q' = q := List.inj_on_of_nodup_map hnodup hq'f.1 hq hfst
      have := hq'f.2
      rw [hqq] at this
      simpa using this
    · intro hskip
      exact List.mem_map_of_mem Prod.fst
        (List.mem_filter.mpr ⟨hq, by simp [hskip]⟩)
  · intro q hq
    have htag : q.1.tag ∈ speechTags := by
      have h' := List.mem_filter.mp hq
      simpa using h'.2
    simp only [speechTags, List.mem_cons, List.not_mem_nil, or_false] at htag
    rcases htag with h' | h' | h' | h' | h' <;> simp [h']
  · have h' := congrArg (List.map
      (fun t : Nat × String × String × List String × List String =>
        (t.1, t.2.2.2.1, t.2.2.2.2))) hb2
    simpa [List.map_map, Function.comp] using h'

/-- C9 amended-claim witness: the theorem applied to the fixture `c1doc`,
which contains a nested speech (discarded) and an interjection (recorded as
an interjector of the enclosing speech). -/
theorem c9_witness :
    docOK c1doc = true ∧
    (∃ debs sps, extract_speeches "w9" c1doc = .ok (debs, sps) ∧
      (∀ q ∈ (matchedNodes c1doc).enumFrom 0,
        (q.1 ∈ sps.map Entry.num ↔ skipClass q.2.2 = false)) ∧
      (∀ q ∈ matchedNodes c1doc, q.1.tag ≠ "interjection") ∧
      sps.map (fun e => (e.num, e.speakers, e.interjectors)) =
        (((matchedNodes c1doc).enumFrom 0).filter
          (fun q => skipClass q.2.2 = false)).map
          (fun iq => (iq.1, speakersOf iq.2.1, interjectorsOf iq.2.1))) :=
  ⟨by decide, c9_nested_units "w9" c1doc (by decide)⟩

/-- C3 witness: reprocessing the minimal fixture `c3doc` into an empty
database twice is idempotent. -/
theorem c3_witness :
    ∃ db1 db2,
      tidy_one_transcript [] emptyTidyDB "w3" c3doc = .ok db1 ∧
      tidy_one_transcript [] db1 "w3" c3doc = .ok db2 ∧
      stripDebates db2 = stripDebates db1 ∧
      stripSpeeches db2 = stripSpeeches db1 :=
  c3_reextract_idempotent [] emptyTidyDB "w3" c3doc
    [⟨"w3", some "1950-03-08", some "Senate", "Supply", "", ""⟩]
    [⟨⟨"w3", some "1950-03-08", some "Senate", "Supply", "", ""⟩, 0, "speech",
      "<speech></speech>", [], []⟩]
    (by rfl) (by decide)
    (by decide) (by decide) (by decide) (by decide) (by decide)

/-! ## C10: lowercase speaker identifiers -/

theorem insertDebates_speakers : ∀ (rs : List DRow) (db db' : TidyDB),
    insertDebates db rs = .ok db' →
    db'.speech_speaker = db.speech_speaker ∧
    db'.speech_interjector = db.speech_interjector := by
  intro rs
  induction rs with
  | nil =>
    intro db db' h
    rw [insertDebates] at h
    cases h
    exact ⟨rfl, rfl⟩
  | cons r rs ih =>
    intro db db' h
    rw [insertDebates] at h
    split at h
    · cases h
    · obtain ⟨e1, e2⟩ := ih _ _ h
      exact ⟨e1, e2⟩

theorem insertSpeeches_lower (roster : List String)
    (hro : ∀ p ∈ roster, lowerFixed p) :
    ∀ (es : List Entry) (db db' : TidyDB),
    (∀ p ∈ db.speech_speaker, lowerFixed p.2) →
    (∀ p ∈ db.speech_interjector, lowerFixed p.2) →
    insertSpeeches roster db es = .ok db' →
    (∀ p ∈ db'.speech_speaker, lowerFixed p.2) ∧
    (∀ p ∈ db'.speech_interjector, lowerFixed p.2) := by
  intro es
  induction es with
  | nil =>
    intro db db' h1 h2 h
    rw [insertSpeeches] at h
    cases h
    exact ⟨h1, h2⟩
  | cons e es ih =>
    intro db db' h1 h2 h
    rw [insertSpeeches] at h
    split at h
    · cases h
    · split at h
      · cases h
      · refine ih _ _ ?_ ?_ h
        · intro p hp
          rcases List.mem_append.mp hp with h' | h'
          · exact h1 p h'
          · obtain ⟨ph, hph, rfl⟩ := List.mem_map.mp h'
            exact hro ph (by simpa using List.of_mem_filter hph)
        · intro p hp
          rcases List.mem_append.mp hp with h' | h'
          · exact h2 p h'
          · obtain ⟨ph, hph, rfl⟩ := List.mem_map.mp h'
            exact hro ph (by simpa using List.of_mem_filter hph)

/-- C10: every speaker identifier stored by the pipeline is lowercase.
Roster PHIDs are lowercased when the member table is built
(`values[0].lower()`); `name.id` texts are lowercased (interjectors
additionally stripped) before the roster intersection; the speech_speaker /
speech_interjector rows a run adds are drawn from that intersection, so all
stored phids are fixed points of lowercasing, and a transcript identifier
matches the roster exactly when the two lowercased forms coincide. -/
theorem c10_lowercase_phids
    (raws : List MemberRaw) (db : TidyDB) (tid : String) (xml : Xml)
    (db' : TidyDB)
    (hsp0 : ∀ p ∈ db.speech_speaker, lowerFixed p.2)
    (hij0 : ∀ p ∈ db.speech_interjector, lowerFixed p.2)
    (hdoc : docOK xml = true)
    (hrun : tidy_one_transcript ((memberTable raws).map Member.phid) db tid xml
      = .ok db') :
    (∀ m ∈ memberTable raws, lowerFixed m.phid) ∧
    (∀ p ∈ db'.speech_speaker, lowerFixed p.2) ∧
    (∀ p ∈ db'.speech_interjector, lowerFixed p.2) ∧
    (∀ debs sps, extract_speeches tid xml = .ok (debs, sps) →
      ∀ e ∈ sps, (∀ s ∈ e.speakers, lowerFixed s) ∧
        (∀ s ∈ e.interjectors, lowerFixed s)) ∧
    (∀ t : String, pyLower t ∈ (memberTable raws).map Member.phid ↔
      ∃ r ∈ raws, pyLower r.PHID = pyLower t) := by
  have hrost : ∀ p ∈ (memberTable raws).map Member.phid, lowerFixed p := by
    intro p hp
    obtain ⟨m, hm, rfl⟩ := List.mem_map.mp hp
    obtain ⟨r, _, rfl⟩ := List.mem_map.mp hm
    exact pyLower_lowerFixed r.PHID
  obtain ⟨dd, hh, debs₀, sps₀, hex₀, _, _, hc, _, _⟩ :=
    extract_speeches_spec tid xml hdoc
  refine ⟨?_, ?_, ?_, ?_, ?_⟩
  · intro m hm
    obtain ⟨r, _, rfl⟩ := List.mem_map.mp hm
    exact pyLower_lowerFixed r.PHID
  all_goals try {
    simp only [tidy_one_transcript, hex₀] at hrun
    rcases hI : insertDebates (delTranscriptRows db tid) debs₀ with _ | db2
    · simp only [hI] at hrun
      exact Except.noConfusion hrun
    · simp only [hI] at hrun
      obtain ⟨hsk, hik⟩ := insertDebates_speakers debs₀ _ _ hI
      have hdel1 : ∀ p ∈ (delTranscriptRows db tid).speech_speaker,
          lowerFixed p.2 :=
        fun p hp => hsp0 p (List.mem_of_mem_filter hp)
      have hdel2 : ∀ p ∈ (delTranscriptRows db tid).speech_interjector,
          lowerFixed p.2 :=
        fun p hp => hij0 p (List.mem_of_mem_filter hp)
      have hres := insertSpeeches_lower _ hrost sps₀ db2 db'
        (by rw [hsk]; exact hdel1) (by rw [hik]; exact hdel2) hrun
      first
      | exact hres.1
      | exact hres.2
  }
  · intro debs sps hex e he
    rw [hex₀] at hex
    obtain ⟨rfl, rfl⟩ : debs₀ = debs ∧ sps₀ = sps := by
      have h' := Except.ok.inj hex
      exact ⟨congrArg Prod.fst h', congrArg Prod.snd h'⟩
    exact ⟨(hc e he).2.2.2.2.1, (hc e he).2.2.2.2.2⟩
  · intro t
    constructor
    · intro hmem
      obtain ⟨m, hm, hphid⟩ := List.mem_map.mp hmem
      obtain ⟨r, hr, rfl⟩ := List.mem_map.mp hm
      exact ⟨r, hr, hphid⟩
    · rintro ⟨r, hr, heq⟩
      rw [← heq]
      exact List.mem_map_of_mem Member.phid
        (List.mem_map_of_mem _ hr)

/-- C10 witness: a roster with the mixed-case PHID "ABC12" and the fixture
document `c10doc` whose name.id texts are "ABC12" (speaker) and "XyZ9"
(unresolved interjector): the stored member and speech_speaker rows are all
lowercase. -/
theorem c10_witness :
    (∀ m ∈ memberTable [⟨"ABC12", none, none, none, none, none, none⟩],
      lowerFixed m.phid) ∧
    (∀ p ∈ (⟨[⟨0, ⟨"w10", some "1999-11-23", some "House of Reps", "Bills",
        "", ""⟩⟩],
      [⟨0, "w10", 0, some "1999-11-23", some "House of Reps", 0, "speech",
        "<speech><talk.start><name.id>ABC12</name.id></talk.start><interjection><talk.start><name.id>XyZ9</name.id></talk.start></interjection></speech>"⟩],
      [(0, "abc12")], [], 1, 1⟩ : TidyDB).speech_speaker, lowerFixed p.2) ∧
    (∀ p ∈ (⟨[⟨0, ⟨"w10", some "1999-11-23", some "House of Reps", "Bills",
        "", ""⟩⟩],
      [⟨0, "w10", 0, some "1999-11-23", some "House of Reps", 0, "speech",
        "<speech><talk.start><name.id>ABC12</name.id></talk.start><interjection><talk.start><name.id>XyZ9</name.id></talk.start></interjection></speech>"⟩],
      [(0, "abc12")], [], 1, 1⟩ : TidyDB).speech_interjector, lowerFixed p.2) ∧
    (∀ debs sps, extract_speeches "w10" c10doc = .ok (debs, sps) →
      ∀ e ∈ sps, (∀ s ∈ e.speakers, lowerFixed s) ∧
        (∀ s ∈ e.interjectors, lowerFixed s)) ∧
    (∀ t : String, pyLower t ∈
        (memberTable [⟨"ABC12", none, none, none, none, none, none⟩]).map
          Member.phid ↔
      ∃ r ∈ [(⟨"ABC12", none, none, none, none, none, none⟩ : MemberRaw)],
        pyLower r.PHID = pyLower t) :=
  c10_lowercase_phids [⟨"ABC12", none, none, none, none, none, none⟩]
    emptyTidyDB "w10" c10doc
    ⟨[⟨0, ⟨"w10", some "1999-11-23", some "House of Reps", "Bills", "", ""⟩⟩],
      [⟨0, "w10", 0, some "1999-11-23", some "House of Reps", 0, "speech",
        "<speech><talk.start><name.id>ABC12</name.id></talk.start><interjection><talk.start><name.id>XyZ9</name.id></talk.start></interjection></speech>"⟩],
      [(0, "abc12")], [], 1, 1⟩
    (by intro p hp; cases hp) (by intro p hp; cases hp) (by decide) (by rfl)

/-! ## C2: monotone freshness ledger -/

/-- C2: for every key tracked in a freshness ledger, reconciliation
overwrites a row only when no row is stored for that key or the newly
observed last-modified is strictly greater, so the stored remote
last-modified never decreases across discovery runs — for the transcript
ledger of download_hansard_transcripts.py and for the proceedings_page
ledger of download_hansard_html.py (whose sitemap phase also deletes rows
absent from the active set — a vanished row has no stored value, which
cannot decrease). -/
theorem c2_lastmod_monotone :
    (∀ (stored : String → Option TRow) (active : List ATRow) (tid : String)
      (told tnew : TRow),
      stored tid = some told →
      reconcileTranscripts stored active tid = some tnew →
      told.last_mod ≤ tnew.last_mod) ∧
    (∀ (stored : String → Option TRow) (active : List ATRow) (tid : String),
      reconcileTranscripts stored active tid ≠ stored tid →
      stored tid = none ∨
      ∃ a ∈ active, a.transcript_id = tid ∧
        ∀ t, stored tid = some t → t.last_mod < a.last_mod) ∧
    (∀ (stored : String → Option PRow) (smaps : List (List APage))
      (u : String) (pold pnew : PRow),
      stored u = some pold →
      htmlSitemapPhase stored smaps u = some pnew →
      pold.last_mod ≤ pnew.last_mod) := by
  refine ⟨?_, ?_, ?_⟩
  · intro stored active tid told tnew hold hnew
    unfold reconcileTranscripts at hnew
    cases hfind : active.find? (fun a => a.transcript_id = tid) with
    | none =>
      simp only [hfind, hold] at hnew
      cases hnew
      exact Nat.le_refl _
    | some a =>
      simp only [hfind, hold] at hnew
      by_cases hgt : a.last_mod > told.last_mod
      · rw [if_pos hgt] at hnew
        cases hnew
        exact Nat.le_of_lt hgt
      · rw [if_neg hgt] at hnew
        cases hnew
        exact Nat.le_refl _
  · intro stored active tid hne
    unfold reconcileTranscripts at hne
    cases hfind : active.find? (fun a => a.transcript_id = tid) with
    | none =>
      simp only [hfind] at hne
      exact absurd rfl hne
    | some a =>
      simp only [hfind] at hne
      cases hold : stored tid with
      | none => exact Or.inl rfl
      | some t =>
        simp only [hold] at hne
        by_cases hgt : a.last_mod > t.last_mod
        · refine Or.inr ⟨a, List.mem_of_find?_eq_some hfind,
            by simpa using List.find?_some hfind, ?_⟩
          intro t' ht'
          cases ht'
          exact hgt
        · rw [if_neg hgt] at hne
          exact absurd rfl hne
  · intro stored smaps u pold pnew hold hnew
    unfold htmlSitemapPhase proceedingsReplace at hnew
    cases hfind : (hansardUrlsOf smaps).find? (fun a => a.url = u) with
    | none =>
      simp only [hfind] at hnew
      unfold proceedingsDelete at hnew
      by_cases hany : (hansardUrlsOf smaps).any (fun a => a.url = u) = true
      · rw [if_pos hany, hold] at hnew
        cases hnew
        exact Nat.le_refl _
      · rw [if_neg hany] at hnew
        cases hnew
    | some a =>
      simp only [hfind] at hnew
      have hmem := List.mem_of_find?_eq_some hfind
      have hurl : a.url = u := by simpa using List.find?_some hfind
      have hany : (hansardUrlsOf smaps).any (fun x => x.url = u) = true :=
        List.any_eq_true.mpr ⟨a, hmem, by simpa using hurl⟩
      unfold proceedingsDelete at hnew
      rw [if_pos hany] at hnew
      simp only [hold] at hnew
      by_cases hgt : a.last_mod > pold.last_mod
      · rw [if_pos hgt] at hnew
        cases hnew
        exact Nat.le_of_lt hgt
      · rw [if_neg hgt] at hnew
        cases hnew
        exact Nat.le_refl _

/-- C2 witness: a stored transcript row with last_mod 5, an active entry with
last_mod 7 — the reconciled row has last_mod 7 ≥ 5; and a proceedings_page
row with last_mod 3 refreshed to 4. -/
theorem c2_witness :
    (⟨"t", none, some "x", 5, some 9, some 2⟩ : TRow).last_mod ≤
      (⟨"t", some "u", none, 7, none, none⟩ : TRow).last_mod ∧
    (⟨"hansard/p", 3, some 8, some "body"⟩ : PRow).last_mod ≤
      (⟨"hansard/p", 4, some 8, some "body"⟩ : PRow).last_mod :=
  ⟨c2_lastmod_monotone.1
      (fun tid => if tid = "t" then
        some ⟨"t", none, some "x", 5, some 9, some 2⟩ else none)
      [⟨"t", 7, some "u"⟩] "t" _ _ (by decide) (by decide),
    c2_lastmod_monotone.2.2
      (fun u => if u = "hansard/p" then
        some ⟨"hansard/p", 3, some 8, some "body"⟩ else none)
      [[⟨"hansard/p", 4⟩]] "hansard/p" _ _ (by decide) (by decide)⟩

/-! ## C6: parse failures abort the tidy run (code bug) -/

/-- C6 (supporting theorem for the code bug): a page whose extraction failed
(`content = none`) makes `insert_data` raise — the code increments the
`failures` local of `tidy_hansard` from inside `insert_data`, an
UnboundLocalError — so the whole single-transaction run aborts instead of
recording the failure row and continuing; and a raw XML document with no
parseable `session.header` makes `extract_speeches` fail wholesale. -/
theorem c6_parse_failure_aborts :
    insertRun emptyHDB [failR, okR] = .error () ∧
    extract_speeches "t" hdrlessDoc = .error () :=
  ⟨rfl, rfl⟩

/-! ## C7: the sitemap-ordering assertion fails fast -/

/-- C7: each step of the transcript discovery walk checks that the sub-index
maxima are non-increasing: a walk whose visited maxima form a non-increasing
chain never raises, and whenever the walk completely traverses a prefix
(ordered, never under the early-termination bound) and the next sub-index's
maximum exceeds the last one, the walk aborts immediately — whatever
sub-indexes follow. -/
theorem c7_order_assert (cu prev : Nat) :
    (∀ ms : List (List Nat), maximaChain prev ms = true →
      ∃ v, walkMaps cu prev ms = .ok v) ∧
    (∀ (pre : List (List Nat)) (e : Nat) (bad : List Nat) (lm : Nat)
      (rest : List (List Nat)),
      visitedTo cu prev pre e = true →
      maxLastmod bad = some lm → e < lm →
      walkMaps cu prev (pre ++ bad :: rest) = .error ()) := by
  constructor
  · intro ms
    induction ms generalizing prev with
    | nil => intro _; exact ⟨[], rfl⟩
    | cons l ls ih =>
      intro hch
      rw [maximaChain] at hch
      cases hml : maxLastmod l with
      | none => rw [hml] at hch; cases hch
      | some lm =>
        rw [hml] at hch
        have hle : lm ≤ prev ∧ maximaChain lm ls = true := by simpa using hch
        simp only [walkMaps, hml]
        rw [if_neg (show ¬ lm > prev by omega)]
        by_cases hcu : lm < cu
        · rw [if_pos hcu]
          exact ⟨[lm], rfl⟩
        · rw [if_neg hcu]
          obtain ⟨v, hv⟩ := ih lm hle.2
          rw [hv]
          exact ⟨lm :: v, rfl⟩
  · intro pre
    induction pre generalizing prev with
    | nil =>
      intro e bad lm rest hvis hml hgt
      have he : e = prev := by simpa [visitedTo] using hvis
      subst he
      simp only [List.nil_append, walkMaps, hml]
      rw [if_pos (show lm > e by omega)]
    | cons l ls ih =>
      intro e bad lm rest hvis hml hgt
      rw [visitedTo] at hvis
      cases hml' : maxLastmod l with
      | none => rw [hml'] at hvis; cases hvis
      | some lm' =>
        rw [hml'] at hvis
        have h' : (lm' ≤ prev ∧ cu ≤ lm') ∧ visitedTo cu lm' ls e = true := by
          simpa using hvis
        simp only [List.cons_append, walkMaps, hml']
        rw [if_neg (show ¬ lm' > prev by omega),
          if_neg (show ¬ lm' < cu by omega)]
        simp only [List.append_eq]
        rw [ih lm' e bad lm rest h'.2 hml hgt]

/-- C7 witness: the theorem applied to concrete sitemaps — the ordered pair
of maxima 5, 3 walks to completion, while the sequence 5, 7 (maximum rising
from 5 to 7) aborts at the violating sub-index no matter what follows. -/
theorem c7_witness :
    (∃ v, walkMaps 0 10 [[5], [2, 3]] = .ok v) ∧
    walkMaps 0 10 [[5], [7], [2], [9]] = .error () :=
  ⟨(c7_order_assert 0 10).1 [[5], [2, 3]] (by decide),
    (c7_order_assert 0 10).2 [[5]] 5 [7] 7 [[2], [9]] (by decide) (by decide)
      (by decide)⟩

/-! ## C8: deletion only on a complete pass -/

/-- C8: the transcript ledger — whose discovery walk may early-terminate —
never deletes a tracked key during reconciliation: every stored row is still
present afterwards.  The proceedings_page ledger deletes rows, but its
sitemap loop has no early termination: the active set is by construction the
hansard URLs of every sub-index, and a tracked URL is deleted exactly when it
appears in none of them (a complete pass); conversely every hansard URL of
any sub-index is in the active set. -/
theorem c8_delete_complete_pass :
    (∀ (stored : String → Option TRow) (active : List ATRow) (tid : String)
      (t : TRow), stored tid = some t →
      ∃ t', reconcileTranscripts stored active tid = some t') ∧
    (∀ (stored : String → Option PRow) (smaps : List (List APage))
      (u : String) (p : PRow), stored u = some p →
      (htmlSitemapPhase stored smaps u = none ↔
        ∀ l ∈ smaps, ∀ a ∈ l, containsSub a.url "hansard" = true →
          a.url ≠ u)) ∧
    (∀ (smaps : List (List APage)) (l : List APage), l ∈ smaps →
      ∀ a ∈ l, containsSub a.url "hansard" = true → a ∈ hansardUrlsOf smaps) := by
  refine ⟨?_, ?_, ?_⟩
  · intro stored active tid t ht
    unfold reconcileTranscripts
    cases hfind : active.find? (fun a => a.transcript_id = tid) with
    | none =>
      simp only [ht]
      exact ⟨t, rfl⟩
    | some a =>
      simp only [ht]
      by_cases hgt : a.last_mod > t.last_mod
      · rw [if_pos hgt]
        exact ⟨_, rfl⟩
      · rw [if_neg hgt]
        exact ⟨t, rfl⟩
  · intro stored smaps u p hp
    unfold htmlSitemapPhase proceedingsReplace proceedingsDelete
    constructor
    · intro hnone l hl a ha hcs hau
      have hmem : a ∈ hansardUrlsOf smaps :=
        List.mem_flatMap.mpr ⟨l, hl, List.mem_filter.mpr ⟨ha, hcs⟩⟩
      have hany : (hansardUrlsOf smaps).any (fun x => x.url = u) = true :=
        List.any_eq_true.mpr ⟨a, hmem, by simpa using hau⟩
      rw [if_pos hany, hp] at hnone
      cases hfind : (hansardUrlsOf smaps).find? (fun x => x.url = u) with
      | none =>
        rw [List.find?_eq_none] at hfind
        exact absurd (by simpa using hau) (by simpa using hfind a hmem)
      | some b =>
        simp only [hfind] at hnone
        by_cases hgt : b.last_mod > p.last_mod
        · rw [if_pos hgt] at hnone
          cases hnone
        · rw [if_neg hgt] at hnone
          cases hnone
    · intro habs
      have hnone2 : (hansardUrlsOf smaps).find? (fun x => x.url = u) = none := by
        rw [List.find?_eq_none]
        intro x hx
        obtain ⟨l, hl, hx'⟩ := List.mem_flatMap.mp hx
        have hx'' := List.mem_filter.mp hx'
        simpa using habs l hl x hx''.1 hx''.2
      rw [hnone2]
      have hany : (hansardUrlsOf smaps).any (fun x => x.url = u) = false := by
        rw [List.any_eq_false]
        intro x hx
        obtain ⟨l, hl, hx'⟩ := List.mem_flatMap.mp hx
        have hx'' := List.mem_filter.mp hx'
        simpa using habs l hl x hx''.1 hx''.2
      rw [hany]
      simp
  · intro smaps l hl a ha hcs
    exact List.mem_flatMap.mpr ⟨l, hl, List.mem_filter.mpr ⟨ha, hcs⟩⟩

/-- C8 witness: a transcript row survives reconciliation against an active
set that does not mention it (as after a truncated walk), and a tracked
proceedings URL missing from every sub-index of a complete pass is deleted
while one that is present is kept. -/
theorem c8_witness :
    (∃ t', reconcileTranscripts
      (fun tid => if tid = "old" then some ⟨"old", none, none, 3, none, none⟩
        else none) [⟨"new", 9, none⟩] "old" = some t') ∧
    ((htmlSitemapPhase
      (fun u => if u = "hansard/gone" then some ⟨"hansard/gone", 2, none, none⟩
        else none) [[⟨"hansard/kept", 5⟩]] "hansard/gone" = none) ↔
      ∀ l ∈ [[(⟨"hansard/kept", 5⟩ : APage)]], ∀ a ∈ l,
        containsSub a.url "hansard" = true → a.url ≠ "hansard/gone") :=
  ⟨c8_delete_complete_pass.1
      (fun tid => if tid = "old" then some ⟨"old", none, none, 3, none, none⟩
        else none) [⟨"new", 9, none⟩] "old"
      ⟨"old", none, none, 3, none, none⟩ (by decide),
    c8_delete_complete_pass.2.1
      (fun u => if u = "hansard/gone" then some ⟨"hansard/gone", 2, none, none⟩
        else none) [[⟨"hansard/kept", 5⟩]] "hansard/gone"
      ⟨"hansard/gone", 2, none, none⟩ (by decide)⟩

/-! ## Helper lemmas for the html fetch loop (C4, C5) -/

/-- Unfolding one step of `fetchPass`. -/
theorem fetchPass_cons (fetch : String → Option String) (now : Nat)
    (p : PRow) (rest pages : List PRow) :
    fetchPass fetch now (p :: rest) pages
      = fetchPass fetch now rest
          (match fetch p.url with
           | none => pages
           | some content => updateByUrl pages p.url now content) := rfl

/-- The `update proceedings_page ... where url = ?` statement changes no row
count. -/
theorem updateByUrl_length (pages : List PRow) (u : String) (now : Nat)
    (c : String) : (updateByUrl pages u now c).length = pages.length := by
  simp [updateByUrl]

/-- A pass of the fetch loop inserts and deletes nothing: it only updates
rows in place. -/
theorem fetchPass_length (fetch : String → Option String) (now : Nat)
    (td : List PRow) : ∀ pages : List PRow,
    (fetchPass fetch now td pages).length = pages.length := by
  induction td with
  | nil => intro pages; rfl
  | cons p rest ih =>
    intro pages
    rw [fetchPass_cons]
    cases hf : fetch p.url with
    | none => simp only [hf]; exact ih pages
    | some c =>
      simp only [hf]
      exact (ih _).trans (updateByUrl_length pages p.url now c)

/-- When every selected fetch fails, a pass leaves the table unchanged. -/
theorem fetchPass_allfail (fetch : String → Option String) (now : Nat)
    (td : List PRow) : ∀ pages : List PRow,
    (∀ p ∈ td, fetch p.url = none) → fetchPass fetch now td pages = pages := by
  induction td with
  | nil => intro pages _; rfl
  | cons p rest ih =>
    intro pages hf
    rw [fetchPass_cons, hf p (List.mem_cons_self p rest)]
    exact ih pages (fun q hq => hf q (List.mem_cons_of_mem p hq))

/-- A pass with zero successful fetches makes no progress at all. -/
theorem onePass_noSuccess (fetch : String → Option String) (now : Nat)
    (pages : List PRow) (h : passSuccesses fetch pages = 0) :
    onePass fetch now pages = pages := by
  have h' : ((toDownload pages).filter
      (fun p => (fetch p.url).isSome)).length = 0 := h
  have hnil := List.length_eq_zero.mp h'
  have hall : ∀ p ∈ toDownload pages, fetch p.url = none := by
    intro p hp
    have hnot := List.filter_eq_nil_iff.mp hnil p hp
    cases hf : fetch p.url with
    | none => rfl
    | some c => exact absurd (by rw [hf]; rfl) hnot
  simp only [onePass]
  exact fetchPass_allfail fetch now (toDownload pages) pages hall

/-- A row whose fetch fails is carried through a pass unchanged. -/
theorem fetchPass_preserves (fetch : String → Option String) (now : Nat)
    (td : List PRow) : ∀ pages : List PRow, ∀ p ∈ pages,
    fetch p.url = none → p ∈ fetchPass fetch now td pages := by
  induction td with
  | nil => intro pages p hp _; exact hp
  | cons q rest ih =>
    intro pages p hp hf
    rw [fetchPass_cons]
    cases hq : fetch q.url with
    | none => simp only [hq]; exact ih pages p hp hf
    | some c =>
      simp only [hq]
      refine ih _ p ?_ hf
      have hne : ¬ p.url = q.url := by
        intro h
        rw [h, hq] at hf
        exact Option.noConfusion hf
      simp only [updateByUrl]
      exact List.mem_map.mpr ⟨p, hp, if_neg hne⟩

/-- After a pass in which every stale row's url has a successful fetch, no
row of the table is stale any more (a freshly committed row is not stale
because the observed last-modified does not exceed the commit time). -/
theorem fetchPass_covers (fetch : String → Option String) (now : Nat)
    (td : List PRow) : ∀ pages : List PRow,
    (∀ q ∈ pages, q.last_mod ≤ now) →
    (∀ q ∈ pages, stale q = true →
      ∃ p ∈ td, p.url = q.url ∧ (fetch p.url).isSome = true) →
    ∀ q ∈ fetchPass fetch now td pages, stale q = false := by
  induction td with
  | nil =>
    intro pages _ hcov q hq
    cases hs : stale q with
    | false => rfl
    | true =>
      obtain ⟨p, hp, _⟩ := hcov q hq hs
      cases hp
  | cons r rest ih =>
    intro pages hlm hcov
    rw [fetchPass_cons]
    cases hr : fetch r.url with
    | none =>
      simp only [hr]
      refine ih pages hlm ?_
      intro q hq hs
      obtain ⟨p, hp, hurl, hsome⟩ := hcov q hq hs
      rcases List.mem_cons.mp hp with heq | hmem
      · rw [heq, hr] at hsome
        simp at hsome
      · exact ⟨p, hmem, hurl, hsome⟩
    | some c =>
      simp only [hr]
      refine ih (updateByUrl pages r.url now c) ?_ ?_
      · intro q hq
        simp only [updateByUrl] at hq
        obtain ⟨q₀, hq₀, rfl⟩ := List.mem_map.mp hq
        have hlm' := hlm q₀ hq₀
        split <;> exact hlm'
      · intro q hq hs
        simp only [updateByUrl] at hq
        obtain ⟨q₀, hq₀, rfl⟩ := List.mem_map.mp hq
        by_cases hu : q₀.url = r.url
        · exfalso
          rw [if_pos hu] at hs
          have hlm' := hlm q₀ hq₀
          simp [stale] at hs
          omega
        · rw [if_neg hu] at hs ⊢
          obtain ⟨p, hp, hurl, hsome⟩ := hcov q₀ hq₀ hs
          rcases List.mem_cons.mp hp with heq | hmem
          · exact absurd (heq ▸ hurl).symm hu
          · exact ⟨p, hmem, hurl, hsome⟩

/-- Unfolding the fuel-indexed loop at zero fuel. -/
theorem downloadLoop_zero (fetch : String → Option String) (now : Nat)
    (pages : List PRow) :
    downloadLoop fetch now 0 pages
      = if (pages.filter stale).isEmpty then some pages else none := rfl

/-- Unfolding one pass of the fuel-indexed loop. -/
theorem downloadLoop_succ (fetch : String → Option String) (now : Nat)
    (fuel : Nat) (pages : List PRow) :
    downloadLoop fetch now (fuel + 1) pages
      = if (pages.filter stale).isEmpty then some pages
        else downloadLoop fetch now fuel (onePass fetch now pages) := rfl

/-! ## C4: the fetch loop has no progress guard -/

/-- C4 counterexample: the `while True` loop of `download_all_html` has no
zero-progress guard, so on a table with one stale page whose fetch always
fails, the loop never exits — no amount of fuel makes `downloadLoop`
return. -/
theorem c4_counterexample : ¬ loopTerminates failFetch 10 onePageTable := by
  rintro ⟨fuel, hf⟩
  have key : ∀ n, downloadLoop failFetch 10 n onePageTable = none := by
    intro n
    induction n with
    | zero => rfl
    | succ m ih =>
      have h1 : downloadLoop failFetch 10 (m + 1) onePageTable
          = downloadLoop failFetch 10 m (onePass failFetch 10 onePageTable) := rfl
      have hop : onePass failFetch 10 onePageTable = onePageTable := rfl
      rw [h1, hop, ih]
  rw [key fuel] at hf
  simp at hf

/-- C4 amended: the fetch loop exits exactly on an empty stale set.  A pass
with zero successful fetches leaves the table unchanged, so if the stale set
is non-empty and no selected fetch succeeds the loop never terminates (there
is no progress guard — the `tries` counter of the source is written but
never read); conversely, if every stale row's fetch succeeds and no stored
last-modified lies in the future, a single pass empties the stale set and
the loop exits. -/
theorem c4_loop_behaviour (fetch : String → Option String) (now : Nat)
    (pages : List PRow) :
    ((pages.filter stale).isEmpty = true →
      downloadLoop fetch now 0 pages = some pages)
    ∧ (passSuccesses fetch pages = 0 → onePass fetch now pages = pages)
    ∧ ((pages.filter stale).isEmpty = false → passSuccesses fetch pages = 0 →
      ∀ fuel, downloadLoop fetch now fuel pages = none)
    ∧ ((∀ p ∈ pages, stale p = true → (fetch p.url).isSome = true) →
      (∀ p ∈ pages, p.last_mod ≤ now) →
      (downloadLoop fetch now 1 pages).isSome = true) := by
  refine ⟨?_, ?_, ?_, ?_⟩
  · intro h
    rw [downloadLoop_zero, if_pos h]
  · exact onePass_noSuccess fetch now pages
  · intro hne hzero fuel
    have hop := onePass_noSuccess fetch now pages hzero
    induction fuel with
    | zero =>
      rw [downloadLoop_zero, hne]
      simp
    | succ m ih =>
      rw [downloadLoop_succ, hne, hop, ih]
      simp
  · intro hok hlm
    have hall : ∀ q ∈ fetchPass fetch now (toDownload pages) pages,
        stale q = false := by
      refine fetchPass_covers fetch now (toDownload pages) pages hlm ?_
      intro q hq hs
      refine ⟨q, ?_, rfl, hok q hq hs⟩
      have hmf : q ∈ pages.filter stale := List.mem_filter.mpr ⟨hq, hs⟩
      exact ((List.perm_insertionSort
        (fun p q => coalesceAccess p ≤ coalesceAccess q)
        (pages.filter stale)).mem_iff).mpr hmf
    have hfilter : (onePass fetch now pages).filter stale = [] := by
      rw [List.filter_eq_nil_iff]
      intro q hq
      have hq' := hall q hq
      simp [hq']
    have h1 : downloadLoop fetch now 1 pages
        = if (pages.filter stale).isEmpty then some pages
          else downloadLoop fetch now 0 (onePass fetch now pages) := rfl
    rw [h1]
    by_cases hb : (pages.filter stale).isEmpty = true
    · rw [if_pos hb]
      rfl
    · rw [if_neg hb, downloadLoop_zero, hfilter]
      rfl

/-- C4 witness: the amended loop behaviour at concrete tables — a pass whose
only fetch fails leaves the one-row table unchanged, and a table whose
single stale row fetches successfully makes the loop exit within one
pass. -/
theorem c4_witness :
    onePass failFetch 9 [⟨"u", 5, none, none⟩] = [⟨"u", 5, none, none⟩]
    ∧ (downloadLoop (fun _ => some "page") 9 1 [⟨"u", 5, none, none⟩]).isSome
      = true :=
  ⟨(c4_loop_behaviour failFetch 9 [⟨"u", 5, none, none⟩]).2.1 (by decide),
   (c4_loop_behaviour (fun _ => some "page") 9 [⟨"u", 5, none, none⟩]).2.2.2
      (by intro p hp hs; rfl) (by decide)⟩

/-! ## C5: error scoping of the two fetch loops -/

/-- C5 counterexample: in `download_all_transcripts` the per-document fetch
has no surrounding try/except — `raise_for_status` on the first failing
document propagates and aborts the whole run, so a network error on one
document is not absorbed by skipping that document. -/
theorem c5_counterexample :
    transcriptFetchLoop failFetch (fun _ => []) 5 [⟨"a", 1, "u"⟩]
      = .error () := rfl

/-- C5 amended: the html fetch loop of `download_all_html` scopes a
transport failure to the one document — a pass deletes no rows, and a row
whose fetch fails survives the pass unchanged, left stale for the next
pass — while the transcript fetch loop of `download_all_transcripts` aborts
the entire run on the first document whose page fetch fails. -/
theorem c5_error_scope (fetch : String → Option String)
    (links : String → List String) (now : Nat) (pages : List PRow) (p : PRow)
    (r : TFetchRow) (rest : List TFetchRow) :
    ((onePass fetch now pages).length = pages.length)
    ∧ (p ∈ pages → fetch p.url = none → p ∈ onePass fetch now pages)
    ∧ (fetch r.html_url = none →
      transcriptFetchLoop fetch links now (r :: rest) = .error ()) := by
  refine ⟨?_, ?_, ?_⟩
  · exact fetchPass_length fetch now (toDownload pages) pages
  · intro hp hf
    exact fetchPass_preserves fetch now (toDownload pages) pages p hp hf
  · intro hf
    simp only [transcriptFetchLoop, hf]

/-- C5 witness: a concrete failing row survives the html pass unchanged,
while the transcript loop on a table whose first row's fetch fails aborts
wholesale. -/
theorem c5_witness :
    (⟨"u", 5, none, none⟩ : PRow) ∈ onePass failFetch 7 [⟨"u", 5, none, none⟩]
    ∧ transcriptFetchLoop failFetch (fun _ => []) 7
        [⟨"a", 1, "u"⟩, ⟨"b", 2, "v"⟩] = .error () :=
  ⟨(c5_error_scope failFetch (fun _ => []) 7 [⟨"u", 5, none, none⟩]
      ⟨"u", 5, none, none⟩ ⟨"a", 1, "u"⟩ [⟨"b", 2, "v"⟩]).2.1
      (List.mem_singleton.mpr rfl) rfl,
   (c5_error_scope failFetch (fun _ => []) 7 [⟨"u", 5, none, none⟩]
      ⟨"u", 5, none, none⟩ ⟨"a", 1, "u"⟩ [⟨"b", 2, "v"⟩]).2.2 rfl⟩

end HansardTidy
